import Mathlib

/-!
# Verification of the cycle-free paths engine of the `indra` repository

The repository ships the tests of this engine
(`indra/tests/test_cycle_free_paths.py`), but the modules under test
(`indra.explanation.paths_graph` and `indra.explanation.cycle_free_paths`)
are not part of the source tree.  Following the specification, the missing
operations are modelled here as executable Lean functions over finite
graphs; every definition whose doc comment starts with
`Modelled from the spec:` is a translation of the specification text for
the corresponding missing Python function.  Original node identifiers are
an arbitrary type `V` with decidable equality; layered nodes are pairs
`(depth, node)`.
-/

namespace CFP

variable {V : Type} [DecidableEq V]

/-- The node set of a directed graph given as an edge list. -/
def nodesOf (g : List (V × V)) : Finset V :=
  (g.map Prod.fst).toFinset ∪ (g.map Prod.snd).toFinset

/-- Successor set of a node `u` in the original graph. -/
def succs (g : List (V × V)) (u : V) : Finset V :=
  (nodesOf g).filter (fun v => (u, v) ∈ g)

/-- The graph with every edge reversed. -/
def reverseG (g : List (V × V)) : List (V × V) :=
  g.map (fun e => (e.2, e.1))

/-- Modelled from the spec: the forward reachability levels of
`get_reachable_sets` (missing module `indra.explanation.paths_graph`):
`fLevels g s d` is the set of nodes reachable from `s` in exactly `d` hops
along some walk, computed by standard level-by-level expansion. -/
def fLevels (g : List (V × V)) (s : V) : ℕ → Finset V
  | 0 => {s}
  | d + 1 => (fLevels g s d).biUnion (succs g)

/-- Modelled from the spec: the backward levels of `get_reachable_sets`:
nodes that reach the target in exactly `d` hops, i.e. forward levels of the
reversed graph from the target. -/
def bLevels (g : List (V × V)) (t : V) (d : ℕ) : Finset V :=
  fLevels (reverseG g) t d

/-- Modelled from the spec: `get_reachable_sets(graph, source, target,
max_depth)` (missing module `indra.explanation.paths_graph`).  It fails
(`InvalidEndpoint`, modelled as `none`) when source or target is absent
from the graph, and otherwise returns the forward and backward level lists
for depths `0..max_depth` with no node filtering. -/
def get_reachable_sets (g : List (V × V)) (s t : V) (maxDepth : ℕ) :
    Option (List (Finset V) × List (Finset V)) :=
  if s ∈ nodesOf g ∧ t ∈ nodesOf g then
    some ((List.range (maxDepth + 1)).map (fLevels g s),
          (List.range (maxDepth + 1)).map (bLevels g t))
  else none

/-- `walkTo g s v d`: there is a walk (repetitions allowed) of exactly `d`
hops from `s` to `v` in `g`; the last hop is peeled off first. -/
def walkTo (g : List (V × V)) (s : V) : V → ℕ → Prop
  | v, 0 => v = s
  | v, d + 1 => ∃ u, walkTo g s u d ∧ (u, v) ∈ g

/-- `walkFrom g v t d`: there is a walk of exactly `d` hops from `v` to
`t` in `g`; the first hop is peeled off first. -/
def walkFrom (g : List (V × V)) (t : V) : V → ℕ → Prop
  | v, 0 => v = t
  | v, d + 1 => ∃ u, (v, u) ∈ g ∧ walkFrom g t u d

/-- A layered graph: nodes are `(depth, original node)` pairs and edges
join consecutive depths. -/
structure LGraph (V : Type) where
  nodes : Finset (ℕ × V)
  edges : Finset ((ℕ × V) × (ℕ × V))
deriving DecidableEq

/-- The layered graph with no nodes and no edges. -/
def LGraph.empty (V : Type) : LGraph V := ⟨∅, ∅⟩

/-- Restriction of a layered graph to a set of surviving layered nodes:
deleted nodes disappear together with all their edges. -/
def restrict (pg : LGraph V) (S : Finset (ℕ × V)) : LGraph V :=
  ⟨pg.nodes.filter (· ∈ S), pg.edges.filter (fun e => e.1 ∈ S ∧ e.2 ∈ S)⟩

/-- Modelled from the spec: `paths_graph(g, source, target, length,
f_level, b_level)` (missing module `indra.explanation.paths_graph`).  A
layered node `(d, n)` is included iff `n ∈ f_level d` and
`n ∈ b_level (length - d)`; a layered edge `(d,u) -> (d+1,v)` is included
iff both endpoints are included and `u -> v` is an edge of `g`. -/
def paths_graph (g : List (V × V)) (L : ℕ) (f b : ℕ → Finset V) : LGraph V :=
  { nodes := (Finset.range (L + 1)).biUnion
      (fun d => (f d ∩ b (L - d)).image (fun n => (d, n)))
    edges := (Finset.range L).biUnion
      (fun d => (((f d ∩ b (L - d)) ×ˢ (f (d + 1) ∩ b (L - d - 1))).filter
          (fun p => p ∈ g)).image (fun p => ((d, p.1), (d + 1, p.2)))) }

/-- The raw layered paths graph of the pipeline: `paths_graph` applied to
the reachability levels of `get_reachable_sets`. -/
def rawPG (g : List (V × V)) (s t : V) (L : ℕ) : LGraph V :=
  paths_graph g L (fLevels g s) (bLevels g t)

/-- The original nodes appearing at depth `d` of a layered graph. -/
def levelNodes (pg : LGraph V) (d : ℕ) : Finset V :=
  (pg.nodes.filter (fun x => x.1 = d)).image Prod.snd

/-- Modelled from the spec: the per-depth forward pass of `PG_0` (missing
module `indra.explanation.cycle_free_paths`).  `pg0Level pg d` is the set
of pairs `(n, tag)` for the layered nodes `(d, n)` that survive the
forward cycle-free pass, where for `d > 0` the surviving predecessors of
`(d, n)` are the surviving `(d-1, p)` with a layered edge to `(d, n)` and
`n ∉ tag (d-1, p)`; the node is deleted when no predecessor survives, and
otherwise its tag is the intersection over surviving predecessors `p` of
`tag (d-1, p) ∪ {p}`.  The seed tag at depth `0` is the empty set. -/
def pg0Level (pg : LGraph V) : ℕ → Finset (V × Finset V)
  | 0 => (levelNodes pg 0).image (fun n => (n, (∅ : Finset V)))
  | d + 1 =>
    (levelNodes pg (d + 1)).biUnion (fun n =>
      let vp := (pg0Level pg d).filter
        (fun pt => ((d, pt.1), (d + 1, n)) ∈ pg.edges ∧ n ∉ pt.2)
      if h : vp.Nonempty then {(n, vp.inf' h (fun pt => insert pt.1 pt.2))}
      else ∅)

/-- The surviving predecessors used by the forward pass: pairs
`(p, tag)` of `pg0Level pg d` with a layered edge `(d, p) -> (d+1, n)`
and `n` not in the tag. -/
def validPreds (pg : LGraph V) (d : ℕ) (n : V) : Finset (V × Finset V) :=
  (pg0Level pg d).filter
    (fun pt => ((d, pt.1), (d + 1, n)) ∈ pg.edges ∧ n ∉ pt.2)

/-- The layered nodes surviving the forward pass up to depth `L`. -/
def survSet (pg : LGraph V) (L : ℕ) : Finset (ℕ × V) :=
  (Finset.range (L + 1)).biUnion
    (fun d => (pg0Level pg d).image (fun pt => (d, pt.1)))

/-- The tag mapping produced by the forward pass, as a finite set of
pairs (layered node, tag). -/
def tagSet (pg : LGraph V) (L : ℕ) : Finset ((ℕ × V) × Finset V) :=
  (Finset.range (L + 1)).biUnion
    (fun d => (pg0Level pg d).image (fun pt => ((d, pt.1), pt.2)))

/-- Modelled from the spec: `PG_0(pg_raw, src, tgt)` (missing module
`indra.explanation.cycle_free_paths`).  It runs the forward cycle-free
pass in increasing depth order and restricts the graph to the surviving
layered nodes; if the target layered node was deleted, the whole graph is
infeasible and an empty graph with an empty tag mapping is returned. -/
def PG_0 (pg : LGraph V) (tgt : ℕ × V) :
    LGraph V × Finset ((ℕ × V) × Finset V) :=
  let L := tgt.1
  if tgt ∈ survSet pg L then (restrict pg (survSet pg L), tagSet pg L)
  else (LGraph.empty V, ∅)

/-- Modelled from the spec: one forward deletion pass of the iterative
refinement `PG`: recompute tags and drop layered nodes whose surviving
predecessor set is empty. -/
def forwardPass (pg : LGraph V) (L : ℕ) : LGraph V :=
  restrict pg (survSet pg L)

/-- Modelled from the spec: the downstream feasibility check of `PG`,
level by level in decreasing depth order: `backAlive pg L k` is the set of
layered nodes at depth `L - k` that still reach depth `L`.  Nodes at depth
`L` (the terminal level) are always kept. -/
def backAlive (pg : LGraph V) (L : ℕ) : ℕ → Finset (ℕ × V)
  | 0 => pg.nodes.filter (fun x => x.1 = L)
  | k + 1 => pg.nodes.filter (fun x =>
      x.1 = L - (k + 1) ∧
      ((backAlive pg L k).filter (fun y => (x, y) ∈ pg.edges)).Nonempty)

/-- All layered nodes surviving the downstream feasibility check. -/
def backSet (pg : LGraph V) (L : ℕ) : Finset (ℕ × V) :=
  (Finset.range (L + 1)).biUnion (backAlive pg L)

/-- Modelled from the spec: the backward half of a refinement pass of
`PG`: a node with zero surviving successors at depth `d < L` is deleted. -/
def backwardPass (pg : LGraph V) (L : ℕ) : LGraph V :=
  restrict pg (backSet pg L)

/-- Modelled from the spec: one full refinement pass of `PG`: a forward
deletion pass followed by the downstream feasibility deletions. -/
def onePass (pg : LGraph V) (L : ℕ) : LGraph V :=
  backwardPass (forwardPass pg L) L

/-- Modelled from the spec: the fixpoint of the iterative refinement `PG`
(the final snapshot): full passes are repeated until one removes nothing;
since each earlier pass removes at least one node, `card + 1` passes
always reach the fixpoint. -/
def PG_fix (pg : LGraph V) (L : ℕ) : LGraph V :=
  (fun x => onePass x L)^[pg.nodes.card + 1] pg

/-- The pruned layered graph of the whole pipeline for a query
`(source, target, length)`: reachability levels, raw paths graph,
initial pass `PG_0`, then the refinement fixpoint. -/
def pipelineFix (g : List (V × V)) (s t : V) (L : ℕ) : LGraph V :=
  PG_fix (PG_0 (rawPG g s t L) (L, t)).1 L

/-- The tag mapping attached to the pruned layered graph at the
refinement fixpoint. -/
def pipelineTags (g : List (V × V)) (s t : V) (L : ℕ) :
    Finset ((ℕ × V) × Finset V) :=
  tagSet (pipelineFix g s t L) L

/-- `pathIn pg d l` : the list `l` of original node identifiers, laid out
at consecutive depths starting from `d`, is a path of the layered graph
`pg` (its layered nodes all present, its consecutive pairs layered
edges). -/
def pathIn (pg : LGraph V) : ℕ → List V → Prop
  | _, [] => True
  | d, [n] => (d, n) ∈ pg.nodes
  | d, n :: m :: r =>
      (d, n) ∈ pg.nodes ∧ ((d, n), (d + 1, m)) ∈ pg.edges ∧
        pathIn pg (d + 1) (m :: r)

instance instDecidablePathIn (pg : LGraph V) : ∀ d l, Decidable (pathIn pg d l)
  | _, [] => isTrue trivial
  | d, [n] => inferInstanceAs (Decidable ((d, n) ∈ pg.nodes))
  | d, _ :: m :: r =>
      have : Decidable (pathIn pg (d + 1) (m :: r)) :=
        instDecidablePathIn pg (d + 1) (m :: r)
      inferInstanceAs (Decidable (_ ∧ _ ∧ _))

/-- A graph has no self-loop when no edge joins a node to itself. -/
def selfLoopFree (g : List (V × V)) : Prop := ∀ e ∈ g, e.1 ≠ e.2

instance (g : List (V × V)) : Decidable (selfLoopFree g) :=
  List.decidableBAll _ g

/-- A layered graph hanging together between a source at depth `0` and a
target at depth `L`: edges advance depth by one and stay inside the node
set, depths are bounded by `L`, the only node at depth `0` (resp. `L`) is
the source (resp. target), and every node has a predecessor (unless at
depth `0`) and a successor (unless at depth `L`). -/
structure Connected (pg : LGraph V) (s t : V) (L : ℕ) : Prop where
  edge_nodes : ∀ e ∈ pg.edges, e.1 ∈ pg.nodes ∧ e.2 ∈ pg.nodes
  edge_step : ∀ e ∈ pg.edges, e.2.1 = e.1.1 + 1
  depth_le : ∀ x ∈ pg.nodes, x.1 ≤ L
  depth_zero : ∀ x ∈ pg.nodes, x.1 = 0 → x.2 = s
  depth_top : ∀ x ∈ pg.nodes, x.1 = L → x.2 = t
  has_pred : ∀ x ∈ pg.nodes, 0 < x.1 → ∃ p, ((x.1 - 1, p), x) ∈ pg.edges
  has_succ : ∀ x ∈ pg.nodes, x.1 < L → ∃ m, (x, (x.1 + 1, m)) ∈ pg.edges

/-- Deletion of a given list of layered nodes (with all their edges). -/
def deleteNodes (pg : LGraph V) (ns : List (ℕ × V)) : LGraph V :=
  restrict pg (pg.nodes.filter (· ∉ ns))

/-- Layered nodes reachable from `src` in exactly `k` layered steps. -/
def fwdLayers (pg : LGraph V) (src : ℕ × V) : ℕ → Finset (ℕ × V)
  | 0 => pg.nodes.filter (· = src)
  | k + 1 => pg.nodes.filter (fun y =>
      ((fwdLayers pg src k).filter (fun x => (x, y) ∈ pg.edges)).Nonempty)

/-- Layered nodes from which `tgt` is reachable in exactly `k` layered
steps. -/
def bwdLayers (pg : LGraph V) (tgt : ℕ × V) : ℕ → Finset (ℕ × V)
  | 0 => pg.nodes.filter (· = tgt)
  | k + 1 => pg.nodes.filter (fun x =>
      ((bwdLayers pg tgt k).filter (fun y => (x, y) ∈ pg.edges)).Nonempty)

/-- Layered nodes lying on at least one layered path from `src` to
`tgt`. -/
def onPathSet (pg : LGraph V) (src tgt : ℕ × V) : Finset (ℕ × V) :=
  (Finset.range (tgt.1 - src.1 + 1)).biUnion
    (fun k => fwdLayers pg src k ∩ bwdLayers pg tgt (tgt.1 - src.1 - k))

/-- Modelled from the spec: `prune(pg_raw, nodes_to_prune, src, tgt)`
(missing module `indra.explanation.cycle_free_paths`).  The listed
layered nodes are deleted, and every layered node or edge that then no
longer lies on a path from the layered source to the layered target is
removed as well; the input graph is left untouched and a fresh graph is
returned. -/
def prune (pg : LGraph V) (ns : List (ℕ × V)) (src tgt : ℕ × V) : LGraph V :=
  restrict (deleteNodes pg ns) (onPathSet (deleteNodes pg ns) src tgt)

section Sampler

variable [LinearOrder V]

/-- The successor candidates offered to the sampler at layered node
`cur` with accumulated prefix `acc`: ends of layered edges out of `cur`
whose original identity is not already in the prefix, listed in a
canonical order. -/
def candList (G : LGraph V) (cur : ℕ × V) (acc : List V) : List V :=
  ((G.edges.filter (fun e => e.1 = cur ∧ e.2.1 = cur.1 + 1 ∧ e.2.2 ∉ acc)).image
    (fun e => e.2.2)).sort (· ≤ ·)

/-- Modelled from the spec: one sampling walk of the path sampler
(missing module `indra.explanation.cycle_free_paths`).  From the current
layered node the walk moves to a successor chosen among the candidates
that do not repeat a node of the accumulated prefix (uniform choice among
valid successors, driven by the seed stream — the documented
simplification of completion-count weighting); a walk that reaches a
layered node with zero valid successors before the target is discarded
(`none`).  Success requires reaching the target identity after exactly
`length` hops. -/
def sampleGo (G : LGraph V) (t : V) (seeds : ℕ → ℕ) :
    ℕ → (ℕ × V) → List V → Option (List V)
  | 0, cur, acc => if cur.2 = t then some acc.reverse else none
  | k + 1, cur, acc =>
    let cs := candList G cur acc
    if h : cs = [] then none
    else
      let chosen := cs.getD (seeds k % cs.length) (cs.head h)
      sampleGo G t seeds k (cur.1 + 1, chosen) (chosen :: acc)

/-- One attempted sample: a walk from `(0, source)` of exactly `L`
hops. -/
def samplePath (G : LGraph V) (s t : V) (L : ℕ) (seeds : ℕ → ℕ) :
    Option (List V) :=
  sampleGo G t seeds L (0, s) [s]

/-- Modelled from the spec: `cf_sample_many_paths(src, tgt, G_cf, T, n)`
(missing module `indra.explanation.cycle_free_paths`).  Up to `n` paths
are collected from independently seeded attempts; attempts that
dead-ended are discarded and resampled (the retry ceiling is the
`attempts` budget).  The tag argument is part of the interface; the
successor filter works on the accumulated prefix. -/
def cf_sample_many_paths (src tgt : ℕ × V) (G : LGraph V)
    (_T : Finset ((ℕ × V) × Finset V)) (n attempts : ℕ)
    (seeds : ℕ → ℕ → ℕ) : List (List V) :=
  (((List.range attempts).filterMap
    (fun i => samplePath G src.2 tgt.2 tgt.1 (seeds i))).take n)

end Sampler

/-! ## The concrete graphs of the repository's tests

Original node identifiers are renamed to numbers:
`A, B, C, D = 0, 1, 2, 3` and, for the `test_prune` graph,
`S, A, B, C, D, T = 0, 1, 2, 3, 4, 5`. -/

/-- The linear chain `A -> B -> C -> D` (`g1_uns` of the tests). -/
def g1_uns : List (ℕ × ℕ) := [(0, 1), (1, 2), (2, 3)]

/-- `A -> B, B -> A, B -> D, A -> D` (`g2_uns` of the tests). -/
def g2_uns : List (ℕ × ℕ) := [(0, 1), (1, 0), (1, 3), (0, 3)]

/-- `A -> B, B -> A, B -> C, C -> D, A -> D` (`g3_uns` of the tests). -/
def g3_uns : List (ℕ × ℕ) := [(0, 1), (1, 0), (1, 2), (2, 3), (0, 3)]

/-- The graph of `test_prune`:
`S->A, S->B, A->S, B->C, C->D, D->T, B->T`. -/
def gPrune : List (ℕ × ℕ) := [(0, 1), (0, 2), (1, 0), (2, 3), (3, 4), (4, 5), (2, 5)]

/-- The pathological 6-node graph of `test_sampling`. -/
def gSampling : List (ℕ × ℕ) :=
  [(0, 1), (0, 3), (0, 4), (0, 5), (1, 4), (2, 4), (2, 5),
   (3, 0), (3, 2), (3, 4), (3, 5), (4, 2), (4, 3), (4, 5)]

/-- A three-node graph with a self-loop: `s -> a, a -> a, a -> t`
(`s, a, t = 0, 1, 2`).  Its only walk of three hops from `s` to `t` is
`s, a, a, t`, which repeats `a`. -/
def gSelfLoop : List (ℕ × ℕ) := [(0, 1), (1, 1), (1, 2)]

/-! ## Basic membership lemmas -/

theorem mem_nodesOf_left {g : List (V × V)} {u v : V} (h : (u, v) ∈ g) :
    u ∈ nodesOf g := by
  unfold nodesOf
  exact Finset.mem_union_left _ (List.mem_toFinset.2 (List.mem_map_of_mem _ h))

theorem mem_nodesOf_right {g : List (V × V)} {u v : V} (h : (u, v) ∈ g) :
    v ∈ nodesOf g := by
  unfold nodesOf
  exact Finset.mem_union_right _ (List.mem_toFinset.2 (List.mem_map_of_mem _ h))

theorem mem_succs {g : List (V × V)} {u v : V} :
    v ∈ succs g u ↔ (u, v) ∈ g := by
  unfold succs
  constructor
  · intro h
    exact (Finset.mem_filter.1 h).2
  · intro h
    exact Finset.mem_filter.2 ⟨mem_nodesOf_right h, h⟩

theorem mem_reverseG {g : List (V × V)} {a b : V} :
    (a, b) ∈ reverseG g ↔ (b, a) ∈ g := by
  unfold reverseG
  constructor
  · intro h
    rcases List.mem_map.1 h with ⟨e, he, hab⟩
    obtain ⟨rfl, rfl⟩ : e.2 = a ∧ e.1 = b := Prod.mk.injEq .. ▸ hab
    exact he
  · intro h
    exact List.mem_map.2 ⟨(b, a), h, rfl⟩

theorem mem_fLevels {g : List (V × V)} {s : V} :
    ∀ {d : ℕ} {v : V}, v ∈ fLevels g s d ↔ walkTo g s v d := by
  intro d
  induction d with
  | zero => intro v; simp [fLevels, walkTo]
  | succ d ih =>
    intro v
    unfold fLevels walkTo
    rw [Finset.mem_biUnion]
    constructor
    · rintro ⟨u, hu, hv⟩
      exact ⟨u, ih.1 hu, mem_succs.1 hv⟩
    · rintro ⟨u, hu, hv⟩
      exact ⟨u, ih.2 hu, mem_succs.2 hv⟩

theorem mem_bLevels {g : List (V × V)} {t : V} :
    ∀ {d : ℕ} {v : V}, v ∈ bLevels g t d ↔ walkFrom g t v d := by
  intro d
  induction d with
  | zero => intro v; simp [bLevels, fLevels, walkFrom]
  | succ d ih =>
    intro v
    unfold bLevels fLevels walkFrom
    rw [Finset.mem_biUnion]
    constructor
    · rintro ⟨u, hu, hv⟩
      exact ⟨u, mem_reverseG.1 (mem_succs.1 hv), ih.1 hu⟩
    · rintro ⟨u, huv, hu⟩
      exact ⟨u, ih.2 hu, mem_succs.2 (mem_reverseG.2 huv)⟩

theorem getD_map_range {α : Type} (f : ℕ → α) (dflt : α) {d n : ℕ}
    (h : d < n) : ((List.range n).map f).getD d dflt = f d := by
  rw [List.getD_eq_getElem?_getD, List.getElem?_map, List.getElem?_range h]
  rfl

/-- C8: for every graph, source, target and max depth on which
`get_reachable_sets` succeeds, `forward_levels[d]` is exactly the set of
nodes reachable from the source in exactly `d` hops along some walk (not
necessarily simple), for every `d ≤ max_depth`; symmetrically the
backward level `d` is exactly the set of nodes that reach the target in
exactly `d` hops.  No node filtering is applied. -/
theorem get_reachable_sets_exact (g : List (V × V)) (s t : V) (maxD : ℕ)
    (F B : List (Finset V))
    (h : get_reachable_sets g s t maxD = some (F, B))
    (d : ℕ) (hd : d ≤ maxD) (v : V) :
    (v ∈ F.getD d ∅ ↔ walkTo g s v d) ∧
      (v ∈ B.getD d ∅ ↔ walkFrom g t v d) := by
  unfold get_reachable_sets at h
  split at h
  · injection h with h2
    obtain ⟨hF, hB⟩ : (List.range (maxD + 1)).map (fLevels g s) = F ∧
        (List.range (maxD + 1)).map (bLevels g t) = B :=
      Prod.mk.injEq .. ▸ h2
    subst hF
    subst hB
    rw [getD_map_range _ _ (Nat.lt_succ_of_le hd),
      getD_map_range _ _ (Nat.lt_succ_of_le hd)]
    exact ⟨mem_fLevels, mem_bLevels⟩
  · exact absurd h (by simp)

/-- Witness for C8 on the chain graph at depth 2. -/
theorem get_reachable_sets_exact_witness :
    (2 ∈ (((List.range 4).map (fLevels g1_uns 0)).getD 2 ∅) ↔
        walkTo g1_uns 0 2 2) ∧
      (2 ∈ (((List.range 4).map (bLevels g1_uns 3)).getD 2 ∅) ↔
        walkFrom g1_uns 3 2 2) :=
  get_reachable_sets_exact g1_uns 0 3 3 _ _ (by decide) 2 (by decide) 2

/-! ## The initial pass `PG_0` on the concrete test graphs -/

/-- C5, counterexample: on the linear chain `A->B->C->D` with length 3,
the tag rule of the spec — `tag (d, n)` is the intersection over
surviving predecessors `p` of `tag (d-1, p) ∪ {p}` — assigns to the
layered node `(2, C)` the tag `{A, B}`, not `{A}` as the claim states
(`A, B, C, D = 0, 1, 2, 3`). -/
theorem PG_0_chain_tag_counterexample :
    ((2, 2), ({0, 1} : Finset ℕ)) ∈ (PG_0 (rawPG g1_uns 0 3 3) (3, 3)).2 ∧
      ((2, 2), ({0} : Finset ℕ)) ∉ (PG_0 (rawPG g1_uns 0 3 3) (3, 3)).2 := by
  decide

/-- C5, amended: on the linear chain with length 3, `PG_0` leaves the
layered paths graph unchanged, and the tag rule of the spec produces the
tags `(0,A) ↦ ∅`, `(1,B) ↦ {A}`, `(2,C) ↦ {A,B}`, `(3,D) ↦ {A,B,C}`. -/
theorem PG_0_chain :
    PG_0 (rawPG g1_uns 0 3 3) (3, 3) =
      (rawPG g1_uns 0 3 3,
        {((0, 0), ∅), ((1, 1), {0}), ((2, 2), {0, 1}),
          ((3, 3), {0, 1, 2})}) := by
  decide

/-- C6: whenever the target layered node was deleted by the forward pass,
`PG_0` reports infeasibility as an empty result, not an exception: it
returns the empty graph and the empty tag mapping. -/
theorem PG_0_infeasible (pg : LGraph V) (tgt : ℕ × V)
    (h : tgt ∉ survSet pg tgt.1) :
    PG_0 pg tgt = (LGraph.empty V, ∅) := by
  unfold PG_0
  exact if_neg h

/-- Witness for C6: on the graph `A->B, B->A, B->D, A->D` with source
`A`, target `D` and length 3, the target layered node `(3, D)` is deleted
and `PG_0` returns an empty graph and empty tags — no simple path of
exactly 3 hops exists. -/
theorem PG_0_infeasible_witness :
    (3, 3) ∉ survSet (rawPG g2_uns 0 3 3) 3 ∧
      PG_0 (rawPG g2_uns 0 3 3) (3, 3) = (LGraph.empty ℕ, ∅) :=
  ⟨by decide, PG_0_infeasible _ _ (by decide)⟩

/-! ## Paths in layered graphs -/

theorem pathIn_single {pg : LGraph V} {d : ℕ} {n : V} :
    pathIn pg d [n] ↔ (d, n) ∈ pg.nodes := Iff.rfl

theorem pathIn_cons_cons {pg : LGraph V} {d : ℕ} {n m : V} {r : List V} :
    pathIn pg d (n :: m :: r) ↔
      (d, n) ∈ pg.nodes ∧ ((d, n), (d + 1, m)) ∈ pg.edges ∧
        pathIn pg (d + 1) (m :: r) := Iff.rfl

theorem mem_restrict_nodes {pg : LGraph V} {S : Finset (ℕ × V)}
    {x : ℕ × V} : x ∈ (restrict pg S).nodes ↔ x ∈ pg.nodes ∧ x ∈ S := by
  simp [restrict]

theorem mem_restrict_edges {pg : LGraph V} {S : Finset (ℕ × V)}
    {e : (ℕ × V) × (ℕ × V)} :
    e ∈ (restrict pg S).edges ↔ e ∈ pg.edges ∧ e.1 ∈ S ∧ e.2 ∈ S := by
  simp [restrict]

/-- Extending a layered path by one node on the right. -/
theorem pathIn_snoc (pg : LGraph V) :
    ∀ (l : List V) (d e : ℕ) (a b : V), pathIn pg d l →
      l.getLast? = some a → d + l.length = e + 1 →
      ((e, a), (e + 1, b)) ∈ pg.edges → (e + 1, b) ∈ pg.nodes →
      pathIn pg d (l ++ [b])
  | [], _, _, a, _, _, hl, _, _, _ => by simp at hl
  | [x], d, e, a, b, h1, h2, h3, h4, h5 => by
    obtain rfl : x = a := by simpa using h2
    obtain rfl : d = e := by simpa using h3
    exact ⟨h1, h4, h5⟩
  | x :: y :: r, d, e, a, b, h1, h2, h3, h4, h5 => by
    obtain ⟨hn, he, hp⟩ := h1
    refine ⟨hn, he, ?_⟩
    exact pathIn_snoc pg (y :: r) (d + 1) e a b hp
      (by rw [List.getLast?_cons_cons] at h2; exact h2)
      (by simp only [List.length_cons] at h3 ⊢; omega) h4 h5

/-- Gluing a layered path ending at `a` to a layered path starting at
`b` along the edge `(e, a) -> (e+1, b)`. -/
theorem pathIn_glue (pg : LGraph V) :
    ∀ (l1 l2 : List V) (d e : ℕ) (a b : V), pathIn pg d l1 →
      l1.getLast? = some a → d + l1.length = e + 1 →
      ((e, a), (e + 1, b)) ∈ pg.edges → pathIn pg (e + 1) (b :: l2) →
      pathIn pg d (l1 ++ b :: l2)
  | [], _, _, _, a, _, _, hl, _, _, _ => by simp at hl
  | [x], l2, d, e, a, b, h1, h2, h3, h4, h5 => by
    obtain rfl : x = a := by simpa using h2
    obtain rfl : d = e := by simpa using h3
    exact ⟨h1, h4, h5⟩
  | x :: y :: r, l2, d, e, a, b, h1, h2, h3, h4, h5 => by
    obtain ⟨hn, he, hp⟩ := h1
    refine ⟨hn, he, ?_⟩
    exact pathIn_glue pg (y :: r) l2 (d + 1) e a b hp
      (by rw [List.getLast?_cons_cons] at h2; exact h2)
      (by simp only [List.length_cons] at h3 ⊢; omega) h4 h5

/-! ## Membership in the raw paths graph, subgraph chains -/

theorem mem_paths_graph_nodes {g : List (V × V)} {L : ℕ} {f b : ℕ → Finset V}
    {d : ℕ} {n : V} :
    (d, n) ∈ (paths_graph g L f b).nodes ↔
      d ≤ L ∧ n ∈ f d ∧ n ∈ b (L - d) := by
  unfold paths_graph
  simp only [Finset.mem_biUnion, Finset.mem_range, Finset.mem_image,
    Finset.mem_inter, Prod.mk.injEq, Nat.lt_succ_iff]
  constructor
  · rintro ⟨d2, hd2, a, ⟨hf, hb⟩, rfl, rfl⟩
    exact ⟨hd2, hf, hb⟩
  · rintro ⟨hd, hf, hb⟩
    exact ⟨d, hd, n, ⟨hf, hb⟩, rfl, rfl⟩

theorem mem_paths_graph_edges {g : List (V × V)} {L : ℕ} {f b : ℕ → Finset V}
    {e : (ℕ × V) × (ℕ × V)} :
    e ∈ (paths_graph g L f b).edges ↔
      ∃ d, d < L ∧ ∃ u v, e = ((d, u), (d + 1, v)) ∧ (u, v) ∈ g ∧
        u ∈ f d ∧ u ∈ b (L - d) ∧ v ∈ f (d + 1) ∧ v ∈ b (L - d - 1) := by
  unfold paths_graph
  simp only [Finset.mem_biUnion, Finset.mem_range, Finset.mem_image,
    Finset.mem_filter, Finset.mem_product, Finset.mem_inter]
  constructor
  · rintro ⟨d, hd, p, ⟨⟨⟨hf1, hb1⟩, hf2, hb2⟩, hg⟩, rfl⟩
    exact ⟨d, hd, p.1, p.2, rfl, hg, hf1, hb1, hf2, hb2⟩
  · rintro ⟨d, hd, u, v, rfl, hg, hf1, hb1, hf2, hb2⟩
    exact ⟨d, hd, (u, v), ⟨⟨⟨hf1, hb1⟩, hf2, hb2⟩, hg⟩, rfl⟩

theorem rawPG_edges_proj {g : List (V × V)} {s t : V} {L : ℕ}
    {e : (ℕ × V) × (ℕ × V)} (h : e ∈ (rawPG g s t L).edges) :
    (e.1.2, e.2.2) ∈ g ∧ e.2.1 = e.1.1 + 1 := by
  rcases mem_paths_graph_edges.1 h with ⟨d, _, u, v, rfl, hg, _⟩
  exact ⟨hg, rfl⟩

theorem restrict_nodes_subset (pg : LGraph V) (S : Finset (ℕ × V)) :
    (restrict pg S).nodes ⊆ pg.nodes := Finset.filter_subset _ _

theorem restrict_edges_subset (pg : LGraph V) (S : Finset (ℕ × V)) :
    (restrict pg S).edges ⊆ pg.edges := Finset.filter_subset _ _

theorem PG_0_edges_subset (pg : LGraph V) (tgt : ℕ × V) :
    (PG_0 pg tgt).1.edges ⊆ pg.edges := by
  unfold PG_0
  dsimp only
  split
  · exact restrict_edges_subset _ _
  · exact Finset.empty_subset _

theorem onePass_edges_subset (pg : LGraph V) (L : ℕ) :
    (onePass pg L).edges ⊆ pg.edges :=
  (restrict_edges_subset _ _).trans (restrict_edges_subset _ _)

theorem onePass_nodes_subset (pg : LGraph V) (L : ℕ) :
    (onePass pg L).nodes ⊆ pg.nodes :=
  (restrict_nodes_subset _ _).trans (restrict_nodes_subset _ _)

theorem iterate_onePass_edges_subset (L : ℕ) :
    ∀ (n : ℕ) (pg : LGraph V),
      ((fun x => onePass x L)^[n] pg).edges ⊆ pg.edges
  | 0, _ => subset_rfl
  | n + 1, pg => by
    rw [Function.iterate_succ_apply]
    exact (iterate_onePass_edges_subset L n _).trans
      (onePass_edges_subset pg L)

theorem PG_fix_edges_subset (pg : LGraph V) (L : ℕ) :
    (PG_fix pg L).edges ⊆ pg.edges :=
  iterate_onePass_edges_subset L _ pg

theorem pipelineFix_edges_sub_raw (g : List (V × V)) (s t : V) (L : ℕ) :
    (pipelineFix g s t L).edges ⊆ (rawPG g s t L).edges :=
  (PG_fix_edges_subset _ L).trans (PG_0_edges_subset _ _)

theorem pipelineFix_proj (g : List (V × V)) (s t : V) (L : ℕ) :
    ∀ e ∈ (pipelineFix g s t L).edges, (e.1.2, e.2.2) ∈ g :=
  fun _ he => (rawPG_edges_proj (pipelineFix_edges_sub_raw g s t L he)).1

/-! ## Soundness of the sampler -/

theorem getD_mem {α : Type} {l : List α} {i : ℕ} {dflt : α}
    (h : dflt ∈ l) : l.getD i dflt ∈ l := by
  by_cases hi : i < l.length
  · rw [List.getD_eq_getElem?_getD, List.getElem?_eq_getElem hi]
    exact List.getElem_mem hi
  · rw [List.getD_eq_default _ _ (Nat.le_of_not_lt hi)]
    exact h

theorem mem_candList [LinearOrder V] {G : LGraph V} {cur : ℕ × V}
    {acc : List V} {v : V} :
    v ∈ candList G cur acc ↔
      (cur, (cur.1 + 1, v)) ∈ G.edges ∧ v ∉ acc := by
  unfold candList
  rw [Finset.mem_sort]
  simp only [Finset.mem_image, Finset.mem_filter]
  constructor
  · rintro ⟨e, ⟨he, h1, h2, h3⟩, rfl⟩
    have h4 : e = (cur, (cur.1 + 1, e.2.2)) := by
      rw [← h2, ← h1]
    rw [← h4]
    exact ⟨he, h3⟩
  · rintro ⟨he, hv⟩
    exact ⟨(cur, (cur.1 + 1, v)), ⟨he, rfl, rfl, hv⟩, rfl⟩

theorem sampleGo_sound [LinearOrder V] {G : LGraph V}
    {g : List (V × V)} {t s : V}
    (proj : ∀ e ∈ G.edges, (e.1.2, e.2.2) ∈ g) (seeds : ℕ → ℕ) :
    ∀ (k : ℕ) (cur : ℕ × V) (acc : List V) (p : List V),
      acc.head? = some cur.2 → acc.getLast? = some s → acc.Nodup →
      List.Chain' (fun a b => (b, a) ∈ g) acc →
      sampleGo G t seeds k cur acc = some p →
      p.length = acc.length + k ∧ p.head? = some s ∧
        p.getLast? = some t ∧ p.Nodup ∧
        List.Chain' (fun a b => (a, b) ∈ g) p
  | 0, cur, acc, p, hh, hl, hnd, hch, hs => by
    unfold sampleGo at hs
    split at hs
    · rename_i hct
      obtain rfl : acc.reverse = p := by injection hs
      refine ⟨by simp, by simpa using hl, ?_, by simpa using hnd, ?_⟩
      · rw [List.getLast?_reverse, hh, hct]
      · rw [List.chain'_reverse]
        exact hch
    · exact absurd hs (by simp)
  | k + 1, cur, acc, p, hh, hl, hnd, hch, hs => by
    rw [sampleGo] at hs
    split at hs
    · exact absurd hs (by simp)
    · rename_i hne
      set cs := candList G cur acc with hcs
      have hhead : cs.head hne ∈ cs := List.head_mem hne
      have hmem : cs.getD (seeds k % cs.length) (cs.head hne) ∈ cs :=
        getD_mem hhead
      set chosen := cs.getD (seeds k % cs.length) (cs.head hne) with hcdef
      obtain ⟨hedge, hnotin⟩ := mem_candList.1 (hcs ▸ hmem)
      have hproj : (cur.2, chosen) ∈ g := proj _ hedge
      obtain ⟨a0, acc0, rfl⟩ : ∃ a0 acc0, acc = a0 :: acc0 := by
        cases acc with
        | nil => simp at hh
        | cons a0 acc0 => exact ⟨a0, acc0, rfl⟩
      obtain rfl : a0 = cur.2 := by simpa using hh
      have := sampleGo_sound proj seeds k (cur.1 + 1, chosen)
        (chosen :: cur.2 :: acc0) p rfl (by simpa using hl)
        (List.nodup_cons.2 ⟨hnotin, hnd⟩)
        (List.chain'_cons.2 ⟨hproj, hch⟩) hs
      refine ⟨?_, this.2⟩
      rw [this.1]
      simp only [List.length_cons]
      omega

theorem samplePath_sound [LinearOrder V] {G : LGraph V}
    {g : List (V × V)} {s t : V} {L : ℕ}
    (proj : ∀ e ∈ G.edges, (e.1.2, e.2.2) ∈ g) (seeds : ℕ → ℕ)
    {p : List V} (hs : samplePath G s t L seeds = some p) :
    p.length = L + 1 ∧ p.head? = some s ∧ p.getLast? = some t ∧
      p.Nodup ∧ List.Chain' (fun a b => (a, b) ∈ g) p := by
  have := sampleGo_sound proj seeds L (0, s) [s] p rfl rfl
    (List.nodup_singleton s) (List.chain'_singleton s) hs
  refine ⟨?_, this.2⟩
  rw [this.1]
  simp [Nat.add_comm]

/-- Shared soundness of `cf_sample_many_paths`: on any layered graph
whose edges project to edges of `g`, every returned path has length
`L + 1`, starts at `s`, ends at `t`, repeats no node and walks along
edges of `g`. -/
theorem sampleMany_sound [LinearOrder V] {G : LGraph V}
    {g : List (V × V)} {s t : V} {L : ℕ}
    (proj : ∀ e ∈ G.edges, (e.1.2, e.2.2) ∈ g)
    (T : Finset ((ℕ × V) × Finset V)) (n attempts : ℕ)
    (seeds : ℕ → ℕ → ℕ) :
    List.Forall
      (fun p => p.length = L + 1 ∧ p.head? = some s ∧
        p.getLast? = some t ∧ p.Nodup ∧
        List.Chain' (fun a b => (a, b) ∈ g) p)
      (cf_sample_many_paths (0, s) (L, t) G T n attempts seeds) := by
  rw [List.forall_iff_forall_mem]
  intro p hp
  unfold cf_sample_many_paths at hp
  have hp2 := List.mem_of_mem_take hp
  rcases List.mem_filterMap.1 hp2 with ⟨i, _, hi⟩
  exact samplePath_sound proj (seeds i) hi

/-- C1: for every call to the path sampler on a pruned layered graph of
the pipeline (any graph, source, target, length, and any seed stream and
retry budget), every path it returns is a sequence of exactly
`length + 1` original node identifiers that starts at the source, ends at
the target, contains no repeated node, and in which every consecutive
pair is an edge of the original graph. -/
theorem cf_sample_many_paths_postcondition [LinearOrder V]
    (g : List (V × V)) (s t : V) (L n attempts : ℕ)
    (seeds : ℕ → ℕ → ℕ) :
    List.Forall
      (fun p => p.length = L + 1 ∧ p.head? = some s ∧
        p.getLast? = some t ∧ p.Nodup ∧
        List.Chain' (fun a b => (a, b) ∈ g) p)
      (cf_sample_many_paths (0, s) (L, t) (pipelineFix g s t L)
        (pipelineTags g s t L) n attempts seeds) :=
  sampleMany_sound (pipelineFix_proj g s t L) _ n attempts seeds

/-- C7: on the pathological 6-node graph of the sampling test (source 0,
target 5, length 5), sampling any number of paths with any seed stream
and retry budget completes (the sampler is a total function) and yields
only valid paths: each sampled path has 6 nodes, starts at 0, ends at 5,
repeats no node and walks along edges of the graph; at most the requested
number of paths is returned, dead-ended walks having been discarded and
resampled. -/
theorem sampling_pathological_graph_safe (n attempts : ℕ)
    (seeds : ℕ → ℕ → ℕ) :
    List.Forall
      (fun p => p.length = 6 ∧ p.head? = some 0 ∧
        p.getLast? = some 5 ∧ p.Nodup ∧
        List.Chain' (fun a b => (a, b) ∈ gSampling) p)
      (cf_sample_many_paths (0, 0) (5, 5) (pipelineFix gSampling 0 5 5)
        (pipelineTags gSampling 0 5 5) n attempts seeds) ∧
      (cf_sample_many_paths (0, 0) (5, 5) (pipelineFix gSampling 0 5 5)
        (pipelineTags gSampling 0 5 5) n attempts seeds).length ≤ n :=
  ⟨sampleMany_sound (pipelineFix_proj gSampling 0 5 5) _ n attempts seeds,
    List.length_take_le n _⟩

/-! ## Building complete source-to-target paths in connected layered
graphs -/

theorem head?_append_left {α : Type} {l1 l2 : List α} {a : α}
    (h : l1.head? = some a) : (l1 ++ l2).head? = some a := by
  rw [List.head?_append, h]
  rfl

theorem getLast?_append_right {α : Type} {l1 l2 : List α} {a : α}
    (h : l2.getLast? = some a) : (l1 ++ l2).getLast? = some a := by
  rw [List.getLast?_append, h]
  rfl

theorem chain_down {pg : LGraph V} {s t : V} {L : ℕ}
    (hc : Connected pg s t L) :
    ∀ (k : ℕ) (x : ℕ × V), x ∈ pg.nodes → x.1 = k →
      ∃ l1 : List V, l1.length = k ∧ pathIn pg 0 (l1 ++ [x.2]) ∧
        (l1 ++ [x.2]).head? = some s
  | 0, x, hx, hk => by
    obtain ⟨d, n⟩ := x
    obtain rfl : d = 0 := hk
    obtain rfl : n = s := hc.depth_zero (0, n) hx rfl
    exact ⟨[], rfl, hx, rfl⟩
  | k + 1, x, hx, hk => by
    obtain ⟨d, n⟩ := x
    obtain rfl : d = k + 1 := hk
    obtain ⟨p, hp⟩ := hc.has_pred (k + 1, n) hx (by omega)
    have hpn : (k, p) ∈ pg.nodes := (hc.edge_nodes _ hp).1
    obtain ⟨l1, hlen, hpath, hhead⟩ := chain_down hc k (k, p) hpn rfl
    refine ⟨l1 ++ [p], by simp [hlen], ?_, head?_append_left hhead⟩
    exact pathIn_snoc pg (l1 ++ [p]) 0 k p n hpath
      (List.getLast?_concat l1) (by simp [hlen]) hp hx

theorem chain_up {pg : LGraph V} {s t : V} {L : ℕ}
    (hc : Connected pg s t L) :
    ∀ (k : ℕ) (x : ℕ × V), x ∈ pg.nodes → x.1 + k = L →
      ∃ l2 : List V, l2.length = k ∧ pathIn pg x.1 (x.2 :: l2) ∧
        (x.2 :: l2).getLast? = some t
  | 0, x, hx, hk => by
    obtain ⟨d, n⟩ := x
    obtain rfl : n = t := hc.depth_top (d, n) hx (by omega)
    exact ⟨[], rfl, hx, rfl⟩
  | k + 1, x, hx, hk => by
    obtain ⟨d, n⟩ := x
    obtain ⟨m, hm⟩ := hc.has_succ (d, n) hx (by omega)
    have hmn : (d + 1, m) ∈ pg.nodes := (hc.edge_nodes _ hm).2
    obtain ⟨l2, hlen, hpath, hlast⟩ :=
      chain_up hc k (d + 1, m) hmn (by omega)
    refine ⟨m :: l2, by simp [hlen], ⟨hx, hm, hpath⟩, ?_⟩
    rw [List.getLast?_cons_cons]
    exact hlast

/-- In a connected layered graph, every edge lies on a complete path
from the depth-`0` source to the depth-`L` target. -/
theorem exists_path_through_edge {pg : LGraph V} {s t : V} {L : ℕ}
    (hc : Connected pg s t L) {e : (ℕ × V) × (ℕ × V)}
    (he : e ∈ pg.edges) :
    ∃ l1 l2 : List V, pathIn pg 0 (l1 ++ e.1.2 :: e.2.2 :: l2) ∧
      (l1 ++ e.1.2 :: e.2.2 :: l2).head? = some s ∧
      (l1 ++ e.1.2 :: e.2.2 :: l2).getLast? = some t ∧
      l1.length = e.1.1 := by
  obtain ⟨hn1, hn2⟩ := hc.edge_nodes e he
  have hstep := hc.edge_step e he
  obtain ⟨l1, hlen1, hp1, hh1⟩ := chain_down hc e.1.1 e.1 hn1 rfl
  obtain ⟨l2, hlen2, hp2, hl2⟩ := chain_up hc (L - e.2.1) e.2 hn2
    (by have := hc.depth_le e.2 hn2; omega)
  have hedge : ((e.1.1, e.1.2), (e.1.1 + 1, e.2.2)) ∈ pg.edges := by
    rw [← hstep]
    exact he
  have hp2b : pathIn pg (e.1.1 + 1) (e.2.2 :: l2) := by
    rw [← hstep]
    exact hp2
  have hglue := pathIn_glue pg (l1 ++ [e.1.2]) l2 0 e.1.1 e.1.2 e.2.2 hp1
    (List.getLast?_concat l1) (by simp [hlen1]) hedge hp2b
  rw [List.append_assoc] at hglue
  refine ⟨l1, l2, hglue, ?_, getLast?_append_right hl2, hlen1⟩
  rw [List.head?_append] at hh1 ⊢
  exact hh1

/-! ## The `prune` operation keeps exactly the connected part -/

theorem restrict_wf {pg : LGraph V} {S : Finset (ℕ × V)}
    (hwf : ∀ e ∈ pg.edges, e.1 ∈ pg.nodes ∧ e.2 ∈ pg.nodes) :
    ∀ e ∈ (restrict pg S).edges,
      e.1 ∈ (restrict pg S).nodes ∧ e.2 ∈ (restrict pg S).nodes := by
  intro e he
  obtain ⟨h1, h2, h3⟩ := mem_restrict_edges.1 he
  exact ⟨mem_restrict_nodes.2 ⟨(hwf e h1).1, h2⟩,
    mem_restrict_nodes.2 ⟨(hwf e h1).2, h3⟩⟩

theorem mem_fwdLayers_zero {pg : LGraph V} {src x : ℕ × V} :
    x ∈ fwdLayers pg src 0 ↔ x ∈ pg.nodes ∧ x = src := by
  unfold fwdLayers
  exact Finset.mem_filter

theorem mem_fwdLayers_succ {pg : LGraph V} {src x : ℕ × V} {k : ℕ} :
    x ∈ fwdLayers pg src (k + 1) ↔
      x ∈ pg.nodes ∧ ∃ y ∈ fwdLayers pg src k, (y, x) ∈ pg.edges := by
  rw [fwdLayers, Finset.mem_filter, Finset.filter_nonempty_iff]

theorem mem_bwdLayers_zero {pg : LGraph V} {tgt x : ℕ × V} :
    x ∈ bwdLayers pg tgt 0 ↔ x ∈ pg.nodes ∧ x = tgt := by
  unfold bwdLayers
  exact Finset.mem_filter

theorem mem_bwdLayers_succ {pg : LGraph V} {tgt x : ℕ × V} {k : ℕ} :
    x ∈ bwdLayers pg tgt (k + 1) ↔
      x ∈ pg.nodes ∧ ∃ y ∈ bwdLayers pg tgt k, (x, y) ∈ pg.edges := by
  rw [bwdLayers, Finset.mem_filter, Finset.filter_nonempty_iff]

theorem fwdLayers_subset_nodes {pg : LGraph V} {src : ℕ × V} :
    ∀ {k : ℕ}, fwdLayers pg src k ⊆ pg.nodes := by
  intro k
  cases k <;> exact Finset.filter_subset _ _

theorem bwdLayers_subset_nodes {pg : LGraph V} {tgt : ℕ × V} :
    ∀ {k : ℕ}, bwdLayers pg tgt k ⊆ pg.nodes := by
  intro k
  cases k <;> exact Finset.filter_subset _ _

theorem fwdLayers_depth {pg : LGraph V} {src : ℕ × V}
    (hstep : ∀ e ∈ pg.edges, e.2.1 = e.1.1 + 1) :
    ∀ (k : ℕ) (x : ℕ × V), x ∈ fwdLayers pg src k → x.1 = src.1 + k
  | 0, x, hx => by
    obtain ⟨-, rfl⟩ := mem_fwdLayers_zero.1 hx
    rfl
  | k + 1, x, hx => by
    obtain ⟨-, y, hy, hyx⟩ := mem_fwdLayers_succ.1 hx
    have h1 := fwdLayers_depth hstep k y hy
    have h2 := hstep (y, x) hyx
    simp only at h2
    omega

theorem bwdLayers_depth {pg : LGraph V} {tgt : ℕ × V}
    (hstep : ∀ e ∈ pg.edges, e.2.1 = e.1.1 + 1) :
    ∀ (k : ℕ) (x : ℕ × V), x ∈ bwdLayers pg tgt k → x.1 + k = tgt.1
  | 0, x, hx => by
    obtain ⟨-, rfl⟩ := mem_bwdLayers_zero.1 hx
    rfl
  | k + 1, x, hx => by
    obtain ⟨-, y, hy, hxy⟩ := mem_bwdLayers_succ.1 hx
    have h1 := bwdLayers_depth hstep k y hy
    have h2 := hstep (x, y) hxy
    simp only at h2
    omega

theorem mem_onPathSet {pg : LGraph V} {src tgt x : ℕ × V} :
    x ∈ onPathSet pg src tgt ↔
      ∃ k ≤ tgt.1 - src.1, x ∈ fwdLayers pg src k ∧
        x ∈ bwdLayers pg tgt (tgt.1 - src.1 - k) := by
  unfold onPathSet
  simp only [Finset.mem_biUnion, Finset.mem_range, Finset.mem_inter,
    Nat.lt_succ_iff]

/-- Everything `prune` keeps hangs together between the layered source
and the layered target. -/
theorem prune_connected {pg : LGraph V} {ns : List (ℕ × V)}
    {src tgt : ℕ × V}
    (hwf : ∀ e ∈ pg.edges, e.1 ∈ pg.nodes ∧ e.2 ∈ pg.nodes)
    (hstep : ∀ e ∈ pg.edges, e.2.1 = e.1.1 + 1)
    (hsrc : src.1 = 0) :
    Connected (prune pg ns src tgt) src.2 tgt.2 tgt.1 := by
  set pgd := deleteNodes pg ns with hpgd
  have hwfd : ∀ e ∈ pgd.edges, e.1 ∈ pgd.nodes ∧ e.2 ∈ pgd.nodes :=
    restrict_wf hwf
  have hstepd : ∀ e ∈ pgd.edges, e.2.1 = e.1.1 + 1 :=
    fun e he => hstep e (restrict_edges_subset _ _ he)
  have hK : tgt.1 - src.1 = tgt.1 := by omega
  have key : ∀ x ∈ onPathSet pgd src tgt,
      x.1 ≤ tgt.1 ∧ x ∈ fwdLayers pgd src x.1 ∧
        x ∈ bwdLayers pgd tgt (tgt.1 - x.1) := by
    intro x hx
    obtain ⟨k, hk, hf, hb⟩ := mem_onPathSet.1 hx
    obtain rfl : x.1 = k := by
      have := fwdLayers_depth hstepd k x hf
      omega
    rw [hK] at hk
    refine ⟨hk, hf, ?_⟩
    rw [show tgt.1 - x.1 = tgt.1 - src.1 - x.1 by omega]
    exact hb
  constructor
  · exact restrict_wf hwfd
  · exact fun e he => hstepd e (restrict_edges_subset _ _ he)
  · intro x hx
    exact (key x (mem_restrict_nodes.1 hx).2).1
  · intro x hx hx0
    have h := (key x (mem_restrict_nodes.1 hx).2).2.1
    rw [hx0] at h
    obtain ⟨-, rfl⟩ := mem_fwdLayers_zero.1 h
    rfl
  · intro x hx hxt
    have h := (key x (mem_restrict_nodes.1 hx).2).2.2
    rw [hxt, Nat.sub_self] at h
    obtain ⟨-, rfl⟩ := mem_bwdLayers_zero.1 h
    rfl
  · intro x hx hx0
    have honx := (mem_restrict_nodes.1 hx).2
    obtain ⟨hxle, hxf, hxb⟩ := key x honx
    rw [show x.1 = (x.1 - 1) + 1 by omega] at hxf
    obtain ⟨-, y, hyf, hyx⟩ := mem_fwdLayers_succ.1 hxf
    have hy1 : y.1 = x.1 - 1 := by
      have := fwdLayers_depth hstepd (x.1 - 1) y hyf
      omega
    have hyb : y ∈ bwdLayers pgd tgt (tgt.1 - x.1 + 1) :=
      mem_bwdLayers_succ.2 ⟨fwdLayers_subset_nodes hyf, x, hxb, hyx⟩
    have hyon : y ∈ onPathSet pgd src tgt := by
      refine mem_onPathSet.2 ⟨x.1 - 1, by omega, hyf, ?_⟩
      rw [show tgt.1 - src.1 - (x.1 - 1) = tgt.1 - x.1 + 1 by omega]
      exact hyb
    have hedge : (y, x) ∈ (prune pg ns src tgt).edges :=
      mem_restrict_edges.2 ⟨hyx, hyon, honx⟩
    refine ⟨y.2, ?_⟩
    rw [show ((x.1 - 1 : ℕ), y.2) = y by rw [← hy1]]
    exact hedge
  · intro x hx hxlt
    have honx := (mem_restrict_nodes.1 hx).2
    obtain ⟨hxle, hxf, hxb⟩ := key x honx
    rw [show tgt.1 - x.1 = (tgt.1 - x.1 - 1) + 1 by omega] at hxb
    obtain ⟨-, y, hyb, hxy⟩ := mem_bwdLayers_succ.1 hxb
    have hy1 : y.1 = x.1 + 1 := by
      have := bwdLayers_depth hstepd (tgt.1 - x.1 - 1) y hyb
      omega
    have hyf : y ∈ fwdLayers pgd src (x.1 + 1) :=
      mem_fwdLayers_succ.2 ⟨bwdLayers_subset_nodes hyb, x, hxf, hxy⟩
    have hyon : y ∈ onPathSet pgd src tgt := by
      refine mem_onPathSet.2 ⟨x.1 + 1, by omega, hyf, ?_⟩
      rw [show tgt.1 - src.1 - (x.1 + 1) = tgt.1 - x.1 - 1 by omega]
      exact hyb
    have hedge : (x, y) ∈ (prune pg ns src tgt).edges :=
      mem_restrict_edges.2 ⟨hxy, honx, hyon⟩
    refine ⟨y.2, ?_⟩
    rw [show ((x.1 + 1 : ℕ), y.2) = y by rw [← hy1]]
    exact hedge

theorem rawPG_wf (g : List (V × V)) (s t : V) (L : ℕ) :
    ∀ e ∈ (rawPG g s t L).edges,
      e.1 ∈ (rawPG g s t L).nodes ∧ e.2 ∈ (rawPG g s t L).nodes := by
  intro e he
  rcases mem_paths_graph_edges.1 he with
    ⟨d, hd, u, v, rfl, hg, hf1, hb1, hf2, hb2⟩
  constructor
  · exact mem_paths_graph_nodes.2 ⟨by omega, hf1, hb1⟩
  · refine mem_paths_graph_nodes.2 ⟨by omega, hf2, ?_⟩
    rw [show L - (d + 1) = L - d - 1 by omega]
    exact hb2

theorem rawPG_step (g : List (V × V)) (s t : V) (L : ℕ) :
    ∀ e ∈ (rawPG g s t L).edges, e.2.1 = e.1.1 + 1 :=
  fun _ he => (rawPG_edges_proj he).2

/-- C10: `prune` removes more than the nodes it is given: every layered
edge kept by `prune` lies on a complete path from the layered source to
the layered target inside the pruned graph (so everything disconnected
by the deletions is removed as well); and on the `test_prune` graph
(`S,A,B,C,D,T = 0..5`, length 4), pruning only the node `(2, S)` leaves
exactly the four edges
`(0,S)->(1,B), (1,B)->(2,C), (2,C)->(3,D), (3,D)->(4,T)` —
in particular `(1, A)` and its edges are eliminated as well. -/
theorem prune_cascades :
    (∀ (W : Type) [DecidableEq W] (pg : LGraph W) (ns : List (ℕ × W))
      (src tgt : ℕ × W),
      (∀ e ∈ pg.edges, e.1 ∈ pg.nodes ∧ e.2 ∈ pg.nodes) →
      (∀ e ∈ pg.edges, e.2.1 = e.1.1 + 1) → src.1 = 0 →
      ∀ e ∈ (prune pg ns src tgt).edges,
        ∃ l1 l2 : List W,
          pathIn (prune pg ns src tgt) 0 (l1 ++ e.1.2 :: e.2.2 :: l2) ∧
          (l1 ++ e.1.2 :: e.2.2 :: l2).head? = some src.2 ∧
          (l1 ++ e.1.2 :: e.2.2 :: l2).getLast? = some tgt.2 ∧
          l1.length = e.1.1) ∧
    prune (rawPG gPrune 0 5 4) [(2, 0)] (0, 0) (4, 5) =
      ⟨{(0, 0), (1, 2), (2, 3), (3, 4), (4, 5)},
        {((0, 0), (1, 2)), ((1, 2), (2, 3)), ((2, 3), (3, 4)),
          ((3, 4), (4, 5))}⟩ :=
  ⟨fun _ _ _ _ _ _ hwf hstep hs _ he =>
      exists_path_through_edge (prune_connected hwf hstep hs) he,
    by decide⟩

/-- Witness for C10: the surviving edge `(0,S) -> (1,B)` of the
`test_prune` scenario lies on a complete surviving path. -/
theorem prune_cascades_witness :
    ((0, 0), (1, 2)) ∈ (prune (rawPG gPrune 0 5 4) [(2, 0)]
      (0, 0) (4, 5)).edges ∧
    ∃ l1 l2 : List ℕ,
      pathIn (prune (rawPG gPrune 0 5 4) [(2, 0)] (0, 0) (4, 5)) 0
        (l1 ++ 0 :: 2 :: l2) ∧
      (l1 ++ 0 :: 2 :: l2).head? = some 0 ∧
      (l1 ++ 0 :: 2 :: l2).getLast? = some 5 ∧ l1.length = 0 :=
  ⟨by decide,
    prune_cascades.1 ℕ (rawPG gPrune 0 5 4) [(2, 0)] (0, 0) (4, 5)
      (rawPG_wf gPrune 0 5 4) (rawPG_step gPrune 0 5 4) rfl
      ((0, 0), (1, 2)) (by decide)⟩

/-! ## Membership in the forward-pass levels and tags -/

theorem mem_levelNodes {pg : LGraph V} {d : ℕ} {n : V} :
    n ∈ levelNodes pg d ↔ (d, n) ∈ pg.nodes := by
  unfold levelNodes
  constructor
  · intro h
    obtain ⟨⟨a, b⟩, hab, hb⟩ := Finset.mem_image.1 h
    obtain ⟨hmem, ha⟩ := Finset.mem_filter.1 hab
    obtain rfl : a = d := ha
    obtain rfl : b = n := hb
    exact hmem
  · intro h
    exact Finset.mem_image.2 ⟨(d, n), Finset.mem_filter.2 ⟨h, rfl⟩, rfl⟩

theorem pg0Level_succ_eq (pg : LGraph V) (d : ℕ) :
    pg0Level pg (d + 1) = (levelNodes pg (d + 1)).biUnion (fun n =>
      if h : (validPreds pg d n).Nonempty then
        {(n, (validPreds pg d n).inf' h (fun pt => insert pt.1 pt.2))}
      else ∅) := rfl

theorem mem_pg0Level_zero {pg : LGraph V} {n : V} {T : Finset V} :
    (n, T) ∈ pg0Level pg 0 ↔ (0, n) ∈ pg.nodes ∧ T = ∅ := by
  rw [pg0Level]
  constructor
  · intro h
    obtain ⟨m, hm, hmn⟩ := Finset.mem_image.1 h
    obtain ⟨rfl, rfl⟩ : m = n ∧ (∅ : Finset V) = T := Prod.mk.injEq .. ▸ hmn
    exact ⟨mem_levelNodes.1 hm, rfl⟩
  · rintro ⟨h, rfl⟩
    exact Finset.mem_image.2 ⟨n, mem_levelNodes.2 h, rfl⟩

theorem mem_validPreds {pg : LGraph V} {d : ℕ} {n p : V} {Tp : Finset V} :
    (p, Tp) ∈ validPreds pg d n ↔ (p, Tp) ∈ pg0Level pg d ∧
      ((d, p), (d + 1, n)) ∈ pg.edges ∧ n ∉ Tp :=
  Finset.mem_filter

theorem mem_pg0Level_succ {pg : LGraph V} {d : ℕ} {n : V} {T : Finset V} :
    (n, T) ∈ pg0Level pg (d + 1) ↔
      (d + 1, n) ∈ pg.nodes ∧ ∃ h : (validPreds pg d n).Nonempty,
        T = (validPreds pg d n).inf' h (fun pt => insert pt.1 pt.2) := by
  rw [pg0Level_succ_eq, Finset.mem_biUnion]
  constructor
  · rintro ⟨m, hm, hmem⟩
    split at hmem
    · rename_i h
      rw [Finset.mem_singleton] at hmem
      obtain ⟨rfl, rfl⟩ :
          n = m ∧ T = (validPreds pg d m).inf'
            h (fun pt => insert pt.1 pt.2) :=
        Prod.mk.injEq .. ▸ hmem
      exact ⟨mem_levelNodes.1 hm, h, rfl⟩
    · exact absurd hmem (Finset.not_mem_empty _)
  · rintro ⟨hn, h, rfl⟩
    refine ⟨n, mem_levelNodes.2 hn, ?_⟩
    rw [dif_pos h]
    exact Finset.mem_singleton_self _

theorem pg0_tag_le {pg : LGraph V} {d : ℕ} {n : V} {T : Finset V}
    (hm : (n, T) ∈ pg0Level pg (d + 1)) {p : V} {Tp : Finset V}
    (hp : (p, Tp) ∈ validPreds pg d n) : T ⊆ insert p Tp := by
  obtain ⟨-, h, rfl⟩ := mem_pg0Level_succ.1 hm
  rw [← Finset.le_iff_subset]
  exact Finset.inf'_le _ hp

theorem mem_survSet {pg : LGraph V} {L d : ℕ} {n : V} :
    (d, n) ∈ survSet pg L ↔ d ≤ L ∧ ∃ T, (n, T) ∈ pg0Level pg d := by
  unfold survSet
  rw [Finset.mem_biUnion]
  constructor
  · rintro ⟨d2, hd2, h⟩
    obtain ⟨⟨p, T⟩, hpt, heq⟩ := Finset.mem_image.1 h
    obtain ⟨rfl, rfl⟩ : d2 = d ∧ p = n := Prod.mk.injEq .. ▸ heq
    exact ⟨Nat.lt_succ_iff.1 (Finset.mem_range.1 hd2), T, hpt⟩
  · rintro ⟨hd, T, hT⟩
    exact ⟨d, Finset.mem_range.2 (Nat.lt_succ_of_le hd),
      Finset.mem_image.2 ⟨(n, T), hT, rfl⟩⟩

theorem mem_tagSet {pg : LGraph V} {L d : ℕ} {n : V} {T : Finset V} :
    ((d, n), T) ∈ tagSet pg L ↔ d ≤ L ∧ (n, T) ∈ pg0Level pg d := by
  unfold tagSet
  rw [Finset.mem_biUnion]
  constructor
  · rintro ⟨d2, hd2, h⟩
    obtain ⟨⟨p, Tp⟩, hpt, heq⟩ := Finset.mem_image.1 h
    obtain ⟨⟨rfl, rfl⟩, rfl⟩ : (d2 = d ∧ p = n) ∧ Tp = T := by
      have := Prod.mk.injEq .. ▸ heq
      exact ⟨Prod.mk.injEq .. ▸ this.1, this.2⟩
    exact ⟨Nat.lt_succ_iff.1 (Finset.mem_range.1 hd2), hpt⟩
  · rintro ⟨hd, hT⟩
    exact ⟨d, Finset.mem_range.2 (Nat.lt_succ_of_le hd),
      Finset.mem_image.2 ⟨(n, T), hT, rfl⟩⟩

theorem mem_backAlive_zero {pg : LGraph V} {L : ℕ} {x : ℕ × V} :
    x ∈ backAlive pg L 0 ↔ x ∈ pg.nodes ∧ x.1 = L := by
  rw [backAlive]
  exact Finset.mem_filter

theorem mem_backAlive_succ {pg : LGraph V} {L k : ℕ} {x : ℕ × V} :
    x ∈ backAlive pg L (k + 1) ↔ x ∈ pg.nodes ∧ x.1 = L - (k + 1) ∧
      ∃ y ∈ backAlive pg L k, (x, y) ∈ pg.edges := by
  rw [backAlive, Finset.mem_filter, Finset.filter_nonempty_iff]

theorem backAlive_depth {pg : LGraph V} {L : ℕ} :
    ∀ {k : ℕ} {x : ℕ × V}, x ∈ backAlive pg L k → x.1 = L - k := by
  intro k x hx
  cases k with
  | zero => simpa using (mem_backAlive_zero.1 hx).2
  | succ k => exact (mem_backAlive_succ.1 hx).2.1

theorem mem_backSet {pg : LGraph V} {L : ℕ} {x : ℕ × V} :
    x ∈ backSet pg L ↔ ∃ k ≤ L, x ∈ backAlive pg L k := by
  unfold backSet
  rw [Finset.mem_biUnion]
  constructor
  · rintro ⟨k, hk, h⟩
    exact ⟨k, Nat.lt_succ_iff.1 (Finset.mem_range.1 hk), h⟩
  · rintro ⟨k, hk, h⟩
    exact ⟨k, Finset.mem_range.2 (Nat.lt_succ_of_le hk), h⟩

/-! ## The refinement reaches a genuine fixpoint -/

theorem restrict_eq_self {pg : LGraph V} {S : Finset (ℕ × V)}
    (hwf : ∀ e ∈ pg.edges, e.1 ∈ pg.nodes ∧ e.2 ∈ pg.nodes)
    (h : (restrict pg S).nodes = pg.nodes) : restrict pg S = pg := by
  have h2 : pg.nodes.filter (· ∈ S) = pg.nodes := h
  have hall : ∀ x ∈ pg.nodes, x ∈ S := Finset.filter_eq_self.1 h2
  have he : pg.edges.filter (fun e => e.1 ∈ S ∧ e.2 ∈ S) = pg.edges :=
    Finset.filter_true_of_mem
      (fun e hee => ⟨hall _ (hwf e hee).1, hall _ (hwf e hee).2⟩)
  show LGraph.mk (pg.nodes.filter (· ∈ S)) _ = pg
  rw [h2, he]

theorem onePass_wf {pg : LGraph V} {L : ℕ}
    (hwf : ∀ e ∈ pg.edges, e.1 ∈ pg.nodes ∧ e.2 ∈ pg.nodes) :
    ∀ e ∈ (onePass pg L).edges,
      e.1 ∈ (onePass pg L).nodes ∧ e.2 ∈ (onePass pg L).nodes :=
  restrict_wf (restrict_wf hwf)

theorem onePass_eq_or_lt {pg : LGraph V} {L : ℕ}
    (hwf : ∀ e ∈ pg.edges, e.1 ∈ pg.nodes ∧ e.2 ∈ pg.nodes) :
    onePass pg L = pg ∨ (onePass pg L).nodes.card < pg.nodes.card := by
  by_cases h : (onePass pg L).nodes = pg.nodes
  · left
    have hsub1 : (onePass pg L).nodes ⊆ (forwardPass pg L).nodes :=
      restrict_nodes_subset _ _
    have hfwn : (forwardPass pg L).nodes = pg.nodes :=
      subset_antisymm (restrict_nodes_subset _ _) (h ▸ hsub1)
    have hfw : forwardPass pg L = pg := restrict_eq_self hwf hfwn
    unfold onePass
    rw [hfw]
    unfold onePass at h
    rw [hfw] at h
    exact restrict_eq_self hwf h
  · right
    exact Finset.card_lt_card
      (Finset.ssubset_iff_subset_ne.2 ⟨onePass_nodes_subset pg L, h⟩)

theorem restrict_empty (S : Finset (ℕ × V)) :
    restrict (LGraph.mk ∅ ∅) S = LGraph.mk ∅ ∅ := by
  unfold restrict
  rw [Finset.filter_empty, Finset.filter_empty]

theorem onePass_empty (L : ℕ) :
    onePass (LGraph.mk (∅ : Finset (ℕ × V)) ∅) L = LGraph.mk ∅ ∅ := by
  unfold onePass backwardPass forwardPass
  rw [restrict_empty, restrict_empty]

theorem iterate_onePass_fix (L : ℕ) :
    ∀ (N : ℕ) (pg : LGraph V),
      (∀ e ∈ pg.edges, e.1 ∈ pg.nodes ∧ e.2 ∈ pg.nodes) →
      pg.nodes.card ≤ N →
      onePass ((fun x => onePass x L)^[N] pg) L =
        (fun x => onePass x L)^[N] pg
  | 0, pg, hwf, hcard => by
    have hn : pg.nodes = ∅ := Finset.card_eq_zero.1 (Nat.le_zero.1 hcard)
    have he : pg.edges = ∅ := Finset.eq_empty_of_forall_not_mem
      (fun e hee => absurd (hn ▸ (hwf e hee).1) (Finset.not_mem_empty _))
    have hpg : pg = LGraph.mk ∅ ∅ := by
      cases pg
      simp only at hn he
      rw [hn, he]
    show onePass pg L = pg
    rw [hpg]
    exact onePass_empty L
  | N + 1, pg, hwf, hcard => by
    rcases @onePass_eq_or_lt V _ pg L hwf with h | h
    · rw [Function.iterate_fixed h]
      exact h
    · rw [Function.iterate_succ_apply]
      exact iterate_onePass_fix L N (onePass pg L) (onePass_wf hwf)
        (by omega)

theorem iterate_onePass_wf (L : ℕ) :
    ∀ (N : ℕ) (pg : LGraph V),
      (∀ e ∈ pg.edges, e.1 ∈ pg.nodes ∧ e.2 ∈ pg.nodes) →
      ∀ e ∈ ((fun x => onePass x L)^[N] pg).edges,
        e.1 ∈ ((fun x => onePass x L)^[N] pg).nodes ∧
          e.2 ∈ ((fun x => onePass x L)^[N] pg).nodes
  | 0, pg, hwf => hwf
  | N + 1, pg, hwf => by
    rw [Function.iterate_succ_apply]
    exact iterate_onePass_wf L N (onePass pg L) (onePass_wf hwf)

theorem PG_fix_wf {pg : LGraph V} {L : ℕ}
    (hwf : ∀ e ∈ pg.edges, e.1 ∈ pg.nodes ∧ e.2 ∈ pg.nodes) :
    ∀ e ∈ (PG_fix pg L).edges,
      e.1 ∈ (PG_fix pg L).nodes ∧ e.2 ∈ (PG_fix pg L).nodes :=
  iterate_onePass_wf L _ pg hwf

theorem PG_fix_stable {pg : LGraph V} {L : ℕ}
    (hwf : ∀ e ∈ pg.edges, e.1 ∈ pg.nodes ∧ e.2 ∈ pg.nodes) :
    onePass (PG_fix pg L) L = PG_fix pg L :=
  iterate_onePass_fix L (pg.nodes.card + 1) pg hwf (by omega)

theorem PG_fix_passes_stable {pg : LGraph V} {L : ℕ}
    (hwf : ∀ e ∈ pg.edges, e.1 ∈ pg.nodes ∧ e.2 ∈ pg.nodes) :
    forwardPass (PG_fix pg L) L = PG_fix pg L ∧
      backwardPass (PG_fix pg L) L = PG_fix pg L := by
  have hst := @PG_fix_stable V _ pg L hwf
  have hwfix := @PG_fix_wf V _ pg L hwf
  have h1 : (forwardPass (PG_fix pg L) L).nodes = (PG_fix pg L).nodes := by
    refine subset_antisymm (restrict_nodes_subset _ _) ?_
    intro x hx
    have : x ∈ (onePass (PG_fix pg L) L).nodes := by rw [hst]; exact hx
    exact restrict_nodes_subset _ _ this
  have hfw : forwardPass (PG_fix pg L) L = PG_fix pg L :=
    restrict_eq_self hwfix h1
  refine ⟨hfw, ?_⟩
  unfold onePass at hst
  rw [hfw] at hst
  exact hst

/-! ## The pruned pipeline graph is connected -/

theorem PG_0_nodes_subset (pg : LGraph V) (tgt : ℕ × V) :
    (PG_0 pg tgt).1.nodes ⊆ pg.nodes := by
  unfold PG_0
  dsimp only
  split
  · exact restrict_nodes_subset _ _
  · exact Finset.empty_subset _

theorem PG_0_wf {pg : LGraph V} {tgt : ℕ × V}
    (hwf : ∀ e ∈ pg.edges, e.1 ∈ pg.nodes ∧ e.2 ∈ pg.nodes) :
    ∀ e ∈ (PG_0 pg tgt).1.edges,
      e.1 ∈ (PG_0 pg tgt).1.nodes ∧ e.2 ∈ (PG_0 pg tgt).1.nodes := by
  unfold PG_0
  dsimp only
  split
  · exact restrict_wf hwf
  · intro e he
    exact absurd he (Finset.not_mem_empty _)

theorem iterate_onePass_nodes_subset (L : ℕ) :
    ∀ (N : ℕ) (pg : LGraph V),
      ((fun x => onePass x L)^[N] pg).nodes ⊆ pg.nodes
  | 0, _ => subset_rfl
  | N + 1, pg => by
    rw [Function.iterate_succ_apply]
    exact (iterate_onePass_nodes_subset L N _).trans
      (onePass_nodes_subset pg L)

theorem pipelineFix_wf (g : List (V × V)) (s t : V) (L : ℕ) :
    ∀ e ∈ (pipelineFix g s t L).edges,
      e.1 ∈ (pipelineFix g s t L).nodes ∧
        e.2 ∈ (pipelineFix g s t L).nodes :=
  PG_fix_wf (PG_0_wf (rawPG_wf g s t L))

theorem pipelineFix_nodes_sub_raw (g : List (V × V)) (s t : V) (L : ℕ) :
    (pipelineFix g s t L).nodes ⊆ (rawPG g s t L).nodes :=
  (iterate_onePass_nodes_subset L _ _).trans (PG_0_nodes_subset _ _)

theorem rawPG_depth_le {g : List (V × V)} {s t : V} {L : ℕ} {x : ℕ × V}
    (hx : x ∈ (rawPG g s t L).nodes) : x.1 ≤ L := by
  obtain ⟨d, n⟩ := x
  exact (mem_paths_graph_nodes.1 hx).1

theorem rawPG_depth_zero {g : List (V × V)} {s t : V} {L : ℕ} {n : V}
    (hx : (0, n) ∈ (rawPG g s t L).nodes) : n = s := by
  have := (mem_paths_graph_nodes.1 hx).2.1
  simpa [fLevels] using this

theorem rawPG_depth_top {g : List (V × V)} {s t : V} {L : ℕ} {n : V}
    (hx : (L, n) ∈ (rawPG g s t L).nodes) : n = t := by
  have := (mem_paths_graph_nodes.1 hx).2.2
  rw [Nat.sub_self] at this
  simpa [bLevels, fLevels] using this

/-- The pipeline fixpoint hangs together between `(0, source)` and
`(length, target)`: at the fixpoint, the forward pass deletes no node
(so every node at positive depth keeps a surviving predecessor) and the
backward pass deletes no node (so every node below the top depth keeps a
successor). -/
theorem pipelineFix_connected (g : List (V × V)) (s t : V) (L : ℕ) :
    Connected (pipelineFix g s t L) s t L := by
  have hwf0 := @PG_0_wf V _ (rawPG g s t L) (L, t) (rawPG_wf g s t L)
  obtain ⟨hfw0, hbw0⟩ := @PG_fix_passes_stable V _ _ L hwf0
  have hfw : forwardPass (pipelineFix g s t L) L = pipelineFix g s t L := hfw0
  have hbw : backwardPass (pipelineFix g s t L) L = pipelineFix g s t L := hbw0
  have hsub := pipelineFix_nodes_sub_raw g s t L
  constructor
  · exact pipelineFix_wf g s t L
  · exact fun e he => rawPG_step g s t L e (pipelineFix_edges_sub_raw g s t L he)
  · exact fun x hx => rawPG_depth_le (hsub hx)
  · intro x hx h0
    obtain ⟨d, n⟩ := x
    obtain rfl : d = 0 := h0
    exact rawPG_depth_zero (hsub hx)
  · intro x hx hL
    obtain ⟨d, n⟩ := x
    obtain rfl : d = L := hL
    exact rawPG_depth_top (hsub hx)
  · intro x hx hpos
    obtain ⟨d, n⟩ := x
    obtain ⟨d0, rfl⟩ : ∃ d0, d = d0 + 1 := by
      cases d with
      | zero => exact absurd hpos (by omega)
      | succ d0 => exact ⟨d0, rfl⟩
    have hx2 : (d0 + 1, n) ∈
        (forwardPass (pipelineFix g s t L) L).nodes := by
      rw [hfw]
      exact hx
    have hx3 := (mem_restrict_nodes.1 hx2).2
    obtain ⟨-, T, hT⟩ := mem_survSet.1 hx3
    obtain ⟨-, hne, -⟩ := mem_pg0Level_succ.1 hT
    obtain ⟨⟨p, Tp⟩, hp⟩ := hne
    exact ⟨p, (mem_validPreds.1 hp).2.1⟩
  · intro x hx hlt
    have hx2 : x ∈ (backwardPass (pipelineFix g s t L) L).nodes := by
      rw [hbw]
      exact hx
    have hx3 := (mem_restrict_nodes.1 hx2).2
    obtain ⟨k, hk, hbk⟩ := mem_backSet.1 hx3
    have hxd := backAlive_depth hbk
    obtain ⟨k0, rfl⟩ : ∃ k0, k = k0 + 1 := by
      cases k with
      | zero => exact absurd hxd (by omega)
      | succ k0 => exact ⟨k0, rfl⟩
    obtain ⟨-, -, y, hy, hxy⟩ := mem_backAlive_succ.1 hbk
    have hyd := backAlive_depth hy
    refine ⟨y.2, ?_⟩
    rw [show ((x.1 + 1 : ℕ), y.2) = y by rw [← show y.1 = x.1 + 1 by omega]]
    exact hxy

/-- C2, counterexample: on the self-loop graph `s -> a, a -> a, a -> t`
(`s, a, t = 0, 1, 2`) with length 3, the layered edge
`(1, a) -> (2, a)` survives to the fixpoint of the refinement, yet no
path from `(0, s)` to `(3, t)` in the pruned graph — indeed no such path
at all — projects to original node identities without a repeat: the
spec's forward check `n ∉ tag(d-1, p)` does not reject a step from a
node to itself. -/
theorem pruning_soundness_counterexample :
    ((1, 1), (2, 1)) ∈ (pipelineFix gSelfLoop 0 2 3).edges ∧
      ¬ ∃ l : List ℕ, pathIn (pipelineFix gSelfLoop 0 2 3) 0 l ∧
        l.head? = some 0 ∧ l.getLast? = some 2 ∧ l.Nodup := by
  have hfix : pipelineFix gSelfLoop 0 2 3 =
      ⟨{(0, 0), (1, 1), (2, 1), (3, 2)},
        {((0, 0), (1, 1)), ((1, 1), (2, 1)), ((2, 1), (3, 2))}⟩ := by
    decide
  rw [hfix]
  refine ⟨by decide, ?_⟩
  rintro ⟨l, hp, hh, hl, hnd⟩
  match l, hp, hh, hl, hnd with
  | [x], hp, hh, hl, hnd =>
    obtain rfl : x = 0 := by simpa using hh
    simp at hl
  | x :: y :: r, hp, hh, hl, hnd =>
    obtain rfl : x = 0 := by simpa using hh
    obtain ⟨-, he1, hp2⟩ := hp
    obtain rfl : y = 1 := by
      have := he1
      simp only [Finset.mem_insert, Finset.mem_singleton,
        Prod.mk.injEq] at this
      omega
    match r, hp2, hl, hnd with
    | [], hp2, hl, hnd => simp at hl
    | z :: r2, hp2, hl, hnd =>
      obtain ⟨-, he2, -⟩ := hp2
      obtain rfl : z = 1 := by
        have := he2
        simp only [Finset.mem_insert, Finset.mem_singleton,
          Prod.mk.injEq] at this
        omega
      simp at hnd

/-- C2, amended: every layered edge surviving to the fixpoint of the
refinement lies on at least one complete path from `(0, source)` to
`(length, target)` inside the pruned layered graph (the projection of
that path to original node identities may, however, repeat a node). -/
theorem surviving_edge_on_path (g : List (V × V)) (s t : V) (L : ℕ)
    (e : (ℕ × V) × (ℕ × V)) (he : e ∈ (pipelineFix g s t L).edges) :
    ∃ l1 l2 : List V,
      pathIn (pipelineFix g s t L) 0 (l1 ++ e.1.2 :: e.2.2 :: l2) ∧
      (l1 ++ e.1.2 :: e.2.2 :: l2).head? = some s ∧
      (l1 ++ e.1.2 :: e.2.2 :: l2).getLast? = some t ∧
      l1.length = e.1.1 :=
  exists_path_through_edge (pipelineFix_connected g s t L) he

/-- Witness for the amended C2 on the surviving self-loop edge. -/
theorem surviving_edge_on_path_witness :
    ((1, 1), (2, 1)) ∈ (pipelineFix gSelfLoop 0 2 3).edges ∧
      ∃ l1 l2 : List ℕ,
        pathIn (pipelineFix gSelfLoop 0 2 3) 0 (l1 ++ 1 :: 1 :: l2) ∧
        (l1 ++ 1 :: 1 :: l2).head? = some 0 ∧
        (l1 ++ 1 :: 1 :: l2).getLast? = some 2 ∧ l1.length = 1 :=
  ⟨by decide,
    surviving_edge_on_path gSelfLoop 0 2 3 ((1, 1), (2, 1)) (by decide)⟩

/-- C4, counterexample: on the self-loop graph `s -> a, a -> a, a -> t`
with length 3, the layered node `(2, a)` survives the pruning fixpoint
with tag `{s, a}`, so its own original node `a = 1` is an element of its
tag, and the surviving source-to-target path `s, a, a, t` repeats `a`. -/
theorem tag_self_membership_counterexample :
    ((2, 1), ({0, 1} : Finset ℕ)) ∈ pipelineTags gSelfLoop 0 2 3 ∧
      (1 : ℕ) ∈ ({0, 1} : Finset ℕ) ∧
      pathIn (pipelineFix gSelfLoop 0 2 3) 0 [0, 1, 1, 2] ∧
      ¬ ([0, 1, 1, 2] : List ℕ).Nodup := by
  refine ⟨by decide, by decide, by decide, by decide⟩

/-- C4, amended: for every input graph without self-loops, every layered
node `(depth, n)` surviving the pruning fixpoint with tag `T` satisfies
`n ∉ T`. -/
theorem tag_excludes_self (g : List (V × V)) (s t : V) (L : ℕ)
    (hsl : selfLoopFree g) (d : ℕ) (n : V) (T : Finset V)
    (hT : ((d, n), T) ∈ pipelineTags g s t L) : n ∉ T := by
  obtain ⟨-, hlev⟩ := mem_tagSet.1 hT
  cases d with
  | zero =>
    obtain ⟨-, rfl⟩ := mem_pg0Level_zero.1 hlev
    exact Finset.not_mem_empty n
  | succ d0 =>
    obtain ⟨-, hne, -⟩ := mem_pg0Level_succ.1 hlev
    obtain ⟨⟨p, Tp⟩, hp⟩ := hne
    have hsubset := pg0_tag_le hlev hp
    obtain ⟨-, hedge, hnotin⟩ := mem_validPreds.1 hp
    have hpn : (p, n) ∈ g :=
      pipelineFix_proj g s t L ((d0, p), (d0 + 1, n)) hedge
    have hpne : p ≠ n := hsl (p, n) hpn
    intro hmem
    rcases Finset.mem_insert.1 (hsubset hmem) with h | h
    · exact hpne h.symm
    · exact hnotin h

/-- Witness for the amended C4 on the chain graph: the tag of `(2, C)`
at the fixpoint does not contain `C`. -/
theorem tag_excludes_self_witness :
    ((2, 2), ({0, 1} : Finset ℕ)) ∈ pipelineTags g1_uns 0 3 3 ∧
      (2 : ℕ) ∉ ({0, 1} : Finset ℕ) :=
  ⟨by decide,
    tag_excludes_self g1_uns 0 3 3 (by decide) 2 2 {0, 1} (by decide)⟩

/-! ## Completeness: simple paths of the original graph survive -/

theorem head?_eq_of_head?_append {α : Type} {l l2 : List α} {a : α}
    (h : (l ++ l2).head? = some a) (hne : l ≠ []) : l.head? = some a := by
  cases l with
  | nil => exact absurd rfl hne
  | cons x l3 =>
    have hx : x = a := by simpa using h
    rw [List.head?_cons, hx]

theorem getLast?_eq_of_getLast?_append {α : Type} {l l2 : List α} {a : α}
    (h : (l ++ l2).getLast? = some a) (hne : l2 ≠ []) :
    l2.getLast? = some a := by
  rw [List.getLast?_append] at h
  obtain ⟨b, hb⟩ : ∃ b, l2.getLast? = some b :=
    Option.ne_none_iff_exists'.1
      (fun hn => hne (List.getLast?_eq_none_iff.1 hn))
  rw [hb] at h
  rw [hb]
  simp only [Option.or_some] at h
  exact h

theorem chain_prefix_walkTo {g : List (V × V)} {s : V} (l1 : List V) :
    ∀ (n : V), List.Chain' (fun a b => (a, b) ∈ g) (l1 ++ [n]) →
      (l1 ++ [n]).head? = some s → walkTo g s n l1.length := by
  induction l1 using List.reverseRecOn with
  | nil =>
    intro n _ hh
    obtain rfl : n = s := by simpa using hh
    rfl
  | append_singleton l1 u ih =>
    intro n hch hh
    obtain ⟨hch1, -, hR⟩ := List.chain'_append.1 hch
    have hun : (u, n) ∈ g := hR u (List.getLast?_concat l1) n rfl
    have hh1 : (l1 ++ [u]).head? = some s :=
      head?_eq_of_head?_append hh (by simp)
    have hwu : walkTo g s u l1.length := ih u hch1 hh1
    show walkTo g s n (l1 ++ [u]).length
    rw [List.length_append]
    exact ⟨u, hwu, hun⟩

theorem chain_suffix_walkFrom {g : List (V × V)} {t : V} :
    ∀ (l2 : List V) (n : V),
      List.Chain' (fun a b => (a, b) ∈ g) (n :: l2) →
      (n :: l2).getLast? = some t → walkFrom g t n l2.length
  | [], n, _, hl => by
    obtain rfl : n = t := by simpa using hl
    rfl
  | m :: l2, n, hch, hl => by
    obtain ⟨hnm, hch2⟩ := List.chain'_cons.1 hch
    rw [List.getLast?_cons_cons] at hl
    exact ⟨m, hnm, chain_suffix_walkFrom l2 m hch2 hl⟩

theorem pathIn_rawPG {g : List (V × V)} {s t : V} {L : ℕ} :
    ∀ (l2 l1 : List V) (n : V),
      List.Chain' (fun a b => (a, b) ∈ g) (l1 ++ n :: l2) →
      (l1 ++ n :: l2).head? = some s →
      (l1 ++ n :: l2).getLast? = some t →
      (l1 ++ n :: l2).length = L + 1 →
      pathIn (rawPG g s t L) l1.length (n :: l2)
  | [], l1, n, hch, hh, hl, hlen => by
    have hd : l1.length = L := by
      rw [List.length_append] at hlen
      simpa using hlen
    have hn : n ∈ fLevels g s l1.length :=
      mem_fLevels.2 (chain_prefix_walkTo l1 n hch hh)
    have hb : n ∈ bLevels g t (L - l1.length) := by
      rw [hd, Nat.sub_self]
      have hnt : n = t := by
        have h2 : (l1 ++ [n]).getLast? = some t := hl
        rw [List.getLast?_concat] at h2
        simpa using h2
      exact mem_bLevels.2 hnt
    exact mem_paths_graph_nodes.2 ⟨hd.le, hn, hb⟩
  | m :: l2, l1, n, hch, hh, hl, hlen => by
    have hlen2 : l1.length + l2.length + 2 = L + 1 := by
      rw [List.length_append] at hlen
      simp only [List.length_cons] at hlen
      omega
    have hsplit : l1 ++ n :: m :: l2 = (l1 ++ [n]) ++ m :: l2 :=
      (List.append_assoc l1 [n] (m :: l2)).symm
    have hchS : List.Chain' (fun a b => (a, b) ∈ g)
        ((l1 ++ [n]) ++ m :: l2) := hsplit ▸ hch
    have hhS : ((l1 ++ [n]) ++ m :: l2).head? = some s := hsplit ▸ hh
    have hlS : ((l1 ++ [n]) ++ m :: l2).getLast? = some t := hsplit ▸ hl
    have hlenS : ((l1 ++ [n]) ++ m :: l2).length = L + 1 := hsplit ▸ hlen
    have hrec0 : pathIn (rawPG g s t L) (l1 ++ [n]).length (m :: l2) :=
      pathIn_rawPG l2 (l1 ++ [n]) m hchS hhS hlS hlenS
    have hrec : pathIn (rawPG g s t L) (l1.length + 1) (m :: l2) := by
      rw [show (l1 ++ [n]).length = l1.length + 1 by simp] at hrec0
      exact hrec0
    obtain ⟨hchpre, hchsuf2, hR⟩ := List.chain'_append.1 hchS
    have hnm : (n, m) ∈ g := hR n (List.getLast?_concat l1) m rfl
    obtain ⟨-, hsufN, -⟩ := List.chain'_append.1 hch
    have hhead1 : (l1 ++ [n]).head? = some s :=
      head?_eq_of_head?_append hhS (by simp)
    have hn : n ∈ fLevels g s l1.length :=
      mem_fLevels.2 (chain_prefix_walkTo l1 n hchpre hhead1)
    have hbn : n ∈ bLevels g t (L - l1.length) := by
      have hlsufN : (n :: m :: l2).getLast? = some t :=
        getLast?_eq_of_getLast?_append hl (by simp)
      have hw := chain_suffix_walkFrom (m :: l2) n hsufN hlsufN
      rw [show L - l1.length = (m :: l2).length by
        simp only [List.length_cons]; omega]
      exact mem_bLevels.2 hw
    have hchm : List.Chain' (fun a b => (a, b) ∈ g) ((l1 ++ [n]) ++ [m]) :=
      List.Chain'.prefix hchS ⟨l2, by simp⟩
    have hmw : m ∈ fLevels g s (l1.length + 1) := by
      have hw := chain_prefix_walkTo (l1 ++ [n]) m hchm
        (head?_append_left hhead1)
      rw [List.length_append] at hw
      exact mem_fLevels.2 hw
    have hbm : m ∈ bLevels g t (L - l1.length - 1) := by
      have hlsuf2 : (m :: l2).getLast? = some t :=
        getLast?_eq_of_getLast?_append hlS (by simp)
      have hw2 := chain_suffix_walkFrom l2 m hchsuf2 hlsuf2
      rw [show L - l1.length - 1 = l2.length by omega]
      exact mem_bLevels.2 hw2
    refine ⟨mem_paths_graph_nodes.2 ⟨by omega, hn, hbn⟩, ?_, hrec⟩
    exact mem_paths_graph_edges.2
      ⟨l1.length, by omega, n, m, rfl, hnm, hn, hbn, hmw, hbm⟩

theorem pathIn_head_mem {pg : LGraph V} {d : ℕ} {n : V} {rest : List V}
    (h : pathIn pg d (n :: rest)) : (d, n) ∈ pg.nodes := by
  cases rest with
  | nil => exact h
  | cons m r => exact h.1

theorem pathIn_last_mem (pg : LGraph V) :
    ∀ (l : List V) (d e : ℕ) (a : V), pathIn pg d l →
      l.getLast? = some a → d + l.length = e + 1 → (e, a) ∈ pg.nodes
  | [], _, _, _, _, hl, _ => by simp at hl
  | [x], d, e, a, h, hl, hlen => by
    obtain rfl : x = a := by simpa using hl
    obtain rfl : d = e := by simpa using hlen
    exact h
  | x :: y :: r, d, e, a, h, hl, hlen => by
    refine pathIn_last_mem pg (y :: r) (d + 1) e a h.2.2 ?_ ?_
    · rw [List.getLast?_cons_cons] at hl
      exact hl
    · simp only [List.length_cons] at hlen ⊢
      omega

/-- A simple path all of whose layered nodes lie in the graph survives
the forward cycle-free pass: each node keeps its predecessor on the path
as a surviving predecessor, and its recomputed tag stays inside the set
of earlier path nodes. -/
theorem surv_along (pg : LGraph V) (L : ℕ) :
    ∀ (rest : List V) (d : ℕ) (n : V) (T seen : Finset V),
      (n, T) ∈ pg0Level pg d → T ⊆ seen →
      pathIn pg d (n :: rest) → (n :: rest).Nodup →
      (∀ x ∈ rest, x ∉ seen) → d + rest.length ≤ L →
      pathIn (restrict pg (survSet pg L)) d (n :: rest)
  | [], d, n, T, _, hT, _, hp, _, _, hdL =>
    mem_restrict_nodes.2 ⟨hp, mem_survSet.2 ⟨by omega, T, hT⟩⟩
  | m :: rest2, d, n, T, seen, hT, hTs, hp, hnd, hseen, hdL => by
    obtain ⟨hn, hedge, hrest⟩ := hp
    have hmn : (d + 1, m) ∈ pg.nodes := pathIn_head_mem hrest
    have hmemvp : (n, T) ∈ validPreds pg d m := by
      refine mem_validPreds.2 ⟨hT, hedge, ?_⟩
      intro hmT
      exact hseen m (by simp) (hTs hmT)
    have hne : (validPreds pg d m).Nonempty := ⟨(n, T), hmemvp⟩
    have hT2mem : (m, (validPreds pg d m).inf' hne
        (fun pt => insert pt.1 pt.2)) ∈ pg0Level pg (d + 1) :=
      mem_pg0Level_succ.2 ⟨hmn, hne, rfl⟩
    have hT2sub : (validPreds pg d m).inf' hne
        (fun pt => insert pt.1 pt.2) ⊆ insert n seen :=
      (pg0_tag_le hT2mem hmemvp).trans (Finset.insert_subset_insert _ hTs)
    have hlen2 : d + 1 + rest2.length ≤ L := by
      simp only [List.length_cons] at hdL
      omega
    have hrec := surv_along pg L rest2 (d + 1) m _ (insert n seen)
      hT2mem hT2sub hrest (List.nodup_cons.1 hnd).2
      (fun x hx hmem => by
        rcases Finset.mem_insert.1 hmem with rfl | hs
        · exact (List.nodup_cons.1 hnd).1 (List.mem_cons_of_mem m hx)
        · exact hseen x (List.mem_cons_of_mem m hx) hs)
      hlen2
    exact ⟨mem_restrict_nodes.2 ⟨hn, mem_survSet.2 ⟨by omega, T, hT⟩⟩,
      mem_restrict_edges.2 ⟨hedge, mem_survSet.2 ⟨by omega, T, hT⟩,
        mem_survSet.2 ⟨by omega, _, hT2mem⟩⟩, hrec⟩

theorem PG_0_preserves {pg : LGraph V} {L : ℕ} {t : V} {l : List V}
    (hp : pathIn pg 0 l) (hnd : l.Nodup) (hlen : l.length = L + 1)
    (hl : l.getLast? = some t) : pathIn (PG_0 pg (L, t)).1 0 l := by
  obtain ⟨n, rest, rfl⟩ : ∃ n rest, l = n :: rest := by
    cases l with
    | nil => exact absurd hlen (by simp)
    | cons a r => exact ⟨a, r, rfl⟩
  have hres : pathIn (restrict pg (survSet pg L)) 0 (n :: rest) :=
    surv_along pg L rest 0 n ∅ ∅
      (mem_pg0Level_zero.2 ⟨pathIn_head_mem hp, rfl⟩) subset_rfl hp hnd
      (fun x _ => Finset.not_mem_empty x)
      (by simp only [List.length_cons] at hlen; omega)
  have htgt : (L, t) ∈ survSet pg L := by
    have hmem := pathIn_last_mem (restrict pg (survSet pg L))
      (n :: rest) 0 L t hres hl (by
        simp only [List.length_cons] at hlen ⊢
        omega)
    exact (mem_restrict_nodes.1 hmem).2
  unfold PG_0
  dsimp only
  rw [if_pos htgt]
  exact hres

theorem back_preserves (pg : LGraph V) (L : ℕ) :
    ∀ (l : List V) (d : ℕ), pathIn pg d l → d + l.length = L + 1 →
      pathIn (backwardPass pg L) d l
  | [], _, _, _ => trivial
  | [n], d, hp, hlen => by
    obtain rfl : d = L := by simpa using hlen
    exact mem_restrict_nodes.2 ⟨hp, mem_backSet.2
      ⟨0, by omega, mem_backAlive_zero.2 ⟨hp, rfl⟩⟩⟩
  | n :: m :: r, d, hp, hlen => by
    obtain ⟨hn, hedge, hrest⟩ := hp
    have hdlt : d < L := by
      simp only [List.length_cons] at hlen
      omega
    have hlen2 : (d + 1) + (m :: r).length = L + 1 := by
      simp only [List.length_cons] at hlen ⊢
      omega
    have hrec := back_preserves pg L (m :: r) (d + 1) hrest hlen2
    have hmB : (d + 1, m) ∈ backSet pg L :=
      (mem_restrict_nodes.1 (pathIn_head_mem hrec)).2
    obtain ⟨k, hk, hbk⟩ := mem_backSet.1 hmB
    have hdm : d + 1 = L - k := backAlive_depth hbk
    have hnB : (d, n) ∈ backAlive pg L (L - d) := by
      rw [show L - d = (L - d - 1) + 1 by omega]
      refine mem_backAlive_succ.2 ⟨hn, ?_, (d + 1, m), ?_, hedge⟩
      · show d = L - (L - d - 1 + 1)
        omega
      · rw [show L - d - 1 = k by omega]
        exact hbk
    exact ⟨mem_restrict_nodes.2 ⟨hn, mem_backSet.2
        ⟨L - d, by omega, hnB⟩⟩,
      mem_restrict_edges.2 ⟨hedge, mem_backSet.2 ⟨L - d, by omega, hnB⟩,
        hmB⟩, hrec⟩

theorem onePass_preserves {pg : LGraph V} {L : ℕ} {l : List V}
    (hp : pathIn pg 0 l) (hnd : l.Nodup) (hlen : l.length = L + 1) :
    pathIn (onePass pg L) 0 l := by
  obtain ⟨n, rest, rfl⟩ : ∃ n rest, l = n :: rest := by
    cases l with
    | nil => exact absurd hlen (by simp)
    | cons a r => exact ⟨a, r, rfl⟩
  have h1 : pathIn (restrict pg (survSet pg L)) 0 (n :: rest) :=
    surv_along pg L rest 0 n ∅ ∅
      (mem_pg0Level_zero.2 ⟨pathIn_head_mem hp, rfl⟩) subset_rfl hp hnd
      (fun x _ => Finset.not_mem_empty x)
      (by simp only [List.length_cons] at hlen; omega)
  exact back_preserves (forwardPass pg L) L (n :: rest) 0 h1
    (by simpa using hlen)

theorem iterate_preserves {L : ℕ} :
    ∀ (N : ℕ) (pg : LGraph V) (l : List V), pathIn pg 0 l → l.Nodup →
      l.length = L + 1 → pathIn ((fun x => onePass x L)^[N] pg) 0 l
  | 0, _, _, hp, _, _ => hp
  | N + 1, pg, l, hp, hnd, hlen => by
    rw [Function.iterate_succ_apply]
    exact iterate_preserves N (onePass pg L) l
      (onePass_preserves hp hnd hlen) hnd hlen

/-- C3: completeness of pruning — for every directed graph, source,
target and length, every simple directed path of exactly `length` hops
from source to target in the original graph survives in the pruned
layered graph at the fixpoint: none of its layered nodes or edges is
removed by `PG_0` or by the refinement passes. -/
theorem pruning_completeness (g : List (V × V)) (s t : V) (L : ℕ)
    (l : List V) (hch : List.Chain' (fun a b => (a, b) ∈ g) l)
    (hh : l.head? = some s) (hl : l.getLast? = some t)
    (hlen : l.length = L + 1) (hnd : l.Nodup) :
    pathIn (pipelineFix g s t L) 0 l := by
  obtain ⟨n, rest, rfl⟩ : ∃ n rest, l = n :: rest := by
    cases l with
    | nil => exact absurd hh (by simp)
    | cons a r => exact ⟨a, r, rfl⟩
  have hraw : pathIn (rawPG g s t L) 0 (n :: rest) :=
    pathIn_rawPG rest [] n hch hh hl hlen
  have h0 : pathIn (PG_0 (rawPG g s t L) (L, t)).1 0 (n :: rest) :=
    PG_0_preserves hraw hnd hlen hl
  exact iterate_preserves _ _ _ h0 hnd hlen

/-- Witness for C3: the simple path `A, B, C, D` of the bypass graph
`g3_uns` survives the whole pipeline with length 3. -/
theorem pruning_completeness_witness :
    pathIn (pipelineFix g3_uns 0 3 3) 0 [0, 1, 2, 3] ∧
      ([0, 1, 2, 3] : List ℕ).Nodup :=
  ⟨pruning_completeness g3_uns 0 3 3 [0, 1, 2, 3]
      (List.chain'_cons.2 ⟨by decide, List.chain'_cons.2 ⟨by decide,
        List.chain'_cons.2 ⟨by decide, List.chain'_singleton 3⟩⟩⟩)
      rfl rfl rfl (by decide), by decide⟩

end CFP
